import Mathlib

/-!
Verification of the Huronalytics site builder (build.py).

Strings are modelled as lists of characters (`Str`).  Each definition below
is a direct translation of the corresponding Python function in build.py;
line references are given in the doc comments.
-/

set_option maxRecDepth 4096

abbrev Str := List Char

/-- Convert a Lean string literal to the character-list model. -/
def str (s : String) : Str := s.toList

/-- Python whitespace characters recognised by str.strip (ASCII subset;
non-ASCII unicode whitespace is not modelled, no input here uses it). -/
def isPySpace (c : Char) : Bool :=
  c = ' ' || c = '\t' || c = '\n' || c = '\r' || c = '\x0b' || c = '\x0c'

/-- Python str.strip(): remove leading and trailing whitespace. -/
def pyStrip (s : Str) : Str :=
  ((s.dropWhile isPySpace).reverse.dropWhile isPySpace).reverse

/-- Python str.lower() restricted to ASCII letters (team codes are ASCII). -/
def pyLower (s : Str) : Str :=
  s.map fun c => if 'A' ≤ c && c ≤ 'Z' then Char.ofNat (c.toNat + 32) else c

/-- Python int() digit run: digits optionally separated by single
underscores (grammar: digit followed by optional underscore-digit pairs). -/
def isPyDigitRun : Str → Bool
  | [] => false
  | [c] => c.isDigit
  | c :: '_' :: rest => c.isDigit && isPyDigitRun rest
  | c :: rest => c.isDigit && isPyDigitRun rest

/-- Numeric value of a digit run, ignoring underscores. -/
def digitsVal (s : Str) : Nat :=
  s.foldl (fun n c => if c = '_' then n else n * 10 + (c.toNat - 48)) 0

/-- Python int(str): strip whitespace, optional sign, then a digit run.
Returns none where Python raises ValueError. -/
def pyInt (s : Str) : Option Int :=
  match pyStrip s with
  | '+' :: u => if isPyDigitRun u then some (digitsVal u) else none
  | '-' :: u => if isPyDigitRun u then some (-(digitsVal u : Int)) else none
  | u => if isPyDigitRun u then some (digitsVal u) else none

/-- Python s.split(': '): leftmost non-overlapping split on the two-character
delimiter colon-space. -/
def splitCS : Str → List Str
  | ':' :: ' ' :: rest => [] :: splitCS rest
  | c :: rest =>
    match splitCS rest with
    | [] => [[c]]
    | h :: t => (c :: h) :: t
  | [] => [[]]

/-- Python ': '.join(l). -/
def interCS : List Str → Str
  | [] => []
  | [s] => s
  | s :: rest => s ++ ':' :: ' ' :: interCS rest

/-- Python (': ' in s): the delimiter occurs somewhere in s. -/
def hasCS : Str → Bool
  | ':' :: ' ' :: _ => true
  | _ :: rest => hasCS rest
  | [] => false

/-- Python s.split('/'): split on every slash. -/
def splitSlash : Str → List Str
  | '/' :: rest => [] :: splitSlash rest
  | c :: rest =>
    match splitSlash rest with
    | [] => [[c]]
    | h :: t => (c :: h) :: t
  | [] => [[]]

/-- Python slice s[2:-2] (clamped at the ends as Python does). -/
def slice2m2 (s : Str) : Str := (s.drop 2).take (s.length - 4)

/-- Python slice s[1:-1]. -/
def slice1m1 (s : Str) : Str := (s.drop 1).take (s.length - 2)

/-- Marker stripping stage of parse_date (build.py lines 88-99): detect and
remove a surrounding strikethrough pair, then a surrounding italic pair.
Returns (is_strikethrough, is_italic, working_entry). -/
def stripMarkers (entry : Str) : Bool × Bool × Str :=
  let p1 : Bool × Str :=
    if (str "~~").isPrefixOf entry && (str "~~").isSuffixOf entry then
      (true, slice2m2 entry)
    else (false, entry)
  let working1 := p1.2
  let p2 : Bool × Str :=
    if ['_'].isPrefixOf working1 && ['_'].isSuffixOf working1 &&
        !((str "__").isPrefixOf working1) then
      (true, slice1m1 working1)
    else (false, working1)
  (p1.1, p2.1, p2.2)

/-- parse_date (build.py lines 84-122): extract an optional MM/DD date prefix
from an entry, handling surrounding strikethrough and italic markers.  On
success the markers are re-applied around the remaining text (italic inside,
strikethrough outside); on any failure the original entry is returned. -/
def parse_date (entry : Str) : Option Str × Str :=
  let sm := stripMarkers entry
  let is_strikethrough := sm.1
  let is_italic := sm.2.1
  let working_entry := sm.2.2
  if hasCS working_entry then
    let potential_date := (splitCS working_entry).headD []
    if ('/' ∈ potential_date) && potential_date.length ≤ 5 then
      match ((splitSlash potential_date).get? 0).bind pyInt,
            ((splitSlash potential_date).get? 1).bind pyInt with
      | some month, some day =>
        if 1 ≤ month && month ≤ 12 && 1 ≤ day && day ≤ 31 then
          let t0 := interCS ((splitCS working_entry).drop 1)
          let t1 := if is_italic then '_' :: t0 ++ ['_'] else t0
          let t2 := if is_strikethrough then '~' :: '~' :: t1 ++ ['~', '~'] else t1
          (some potential_date, t2)
        else (none, entry)
      | _, _ => (none, entry)
    else (none, entry)
  else (none, entry)

/-- Transaction record (the dict built in parse_excel, build.py lines 198-207). -/
structure Txn where
  team_abbr : Str
  team : Str
  category : Str
  date : Option Str
  entry : Str
  raw : Str
  is_mlb : Bool
  paired_value : Option Str
deriving DecidableEq, Repr

/-- date_sort_key (build.py lines 125-141): chronological sort key.
Undated entries containing an asterisk sort first, other undated entries
last; a dated entry gets year 2025 for month at least 9, else 2026.  Any
parse failure falls back to the late sentinel (the bare except). -/
def date_sort_key (t : Txn) : Int × Int × Int :=
  match t.date with
  | none =>
    if ('*' ∈ t.entry) ∨ ('*' ∈ t.raw) then ((1900 : Int), 1, 1) else (2099, 12, 31)
  | some d =>
    match ((splitSlash d).get? 0).bind pyInt, ((splitSlash d).get? 1).bind pyInt with
    | some month, some day => ((if month ≥ 9 then 2025 else 2026), month, day)
    | _, none => (2099, 12, 31)
    | none, _ => (2099, 12, 31)

/-- Reference sort-key definition written from the words of claim C5, to be
compared with the source's date_sort_key: undated with an asterisk in raw
or text sorts as (1900,1,1); undated otherwise as (2099,12,31); dated as
(2025 if month ≥ 9 else 2026, month, day), with parse failure falling back
to (2099,12,31). -/
def sortKeySpec (t : Txn) : Int × Int × Int :=
  match t.date with
  | none =>
    if ('*' ∈ t.raw) ∨ ('*' ∈ t.entry) then ((1900 : Int), 1, 1) else (2099, 12, 31)
  | some d =>
    match ((splitSlash d).get? 0).bind pyInt, ((splitSlash d).get? 1).bind pyInt with
    | some month, some day => ((if month ≥ 9 then 2025 else 2026), month, day)
    | _, none => (2099, 12, 31)
    | none, _ => (2099, 12, 31)

/-- Strict lexicographic order on key triples (Python tuple comparison). -/
def tupLt (a b : Int × Int × Int) : Prop :=
  a.1 < b.1 ∨ (a.1 = b.1 ∧ (a.2.1 < b.2.1 ∨ (a.2.1 = b.2.1 ∧ a.2.2 < b.2.2)))

/-- Lexicographic order (reflexive) on key triples. -/
def tupLe (a b : Int × Int × Int) : Prop := tupLt a b ∨ a = b

instance : DecidablePred (fun p : (Int × Int × Int) × (Int × Int × Int) => tupLt p.1 p.2) :=
  fun p => by unfold tupLt; infer_instance

instance (a b : Int × Int × Int) : Decidable (tupLt a b) := by unfold tupLt; infer_instance

instance (a b : Int × Int × Int) : Decidable (tupLe a b) := by unfold tupLe; infer_instance

/-- Python sorted(txns, key=date_sort_key): stable ascending sort. -/
def sortByDate (l : List Txn) : List Txn :=
  l.mergeSort fun a b => decide (tupLe (date_sort_key a) (date_sort_key b))

/-- TEAM_INFO (build.py lines 18-49): (code, display name, short name). -/
def TEAM_INFO : List (Str × Str × Str) := [
  (str "ARI", str "Arizona Diamondbacks", str "Diamondbacks"),
  (str "ATH", str "Athletics", str "Athletics"),
  (str "ATL", str "Atlanta Braves", str "Braves"),
  (str "BAL", str "Baltimore Orioles", str "Orioles"),
  (str "BOS", str "Boston Red Sox", str "Red Sox"),
  (str "CHC", str "Chicago Cubs", str "Cubs"),
  (str "CHW", str "Chicago White Sox", str "White Sox"),
  (str "CIN", str "Cincinnati Reds", str "Reds"),
  (str "CLE", str "Cleveland Guardians", str "Guardians"),
  (str "COL", str "Colorado Rockies", str "Rockies"),
  (str "DET", str "Detroit Tigers", str "Tigers"),
  (str "HOU", str "Houston Astros", str "Astros"),
  (str "KCR", str "Kansas City Royals", str "Royals"),
  (str "LAA", str "Los Angeles Angels", str "Angels"),
  (str "LAD", str "Los Angeles Dodgers", str "Dodgers"),
  (str "MIA", str "Miami Marlins", str "Marlins"),
  (str "MIL", str "Milwaukee Brewers", str "Brewers"),
  (str "MIN", str "Minnesota Twins", str "Twins"),
  (str "NYM", str "New York Mets", str "Mets"),
  (str "NYY", str "New York Yankees", str "Yankees"),
  (str "PHI", str "Philadelphia Phillies", str "Phillies"),
  (str "PIT", str "Pittsburgh Pirates", str "Pirates"),
  (str "SDP", str "San Diego Padres", str "Padres"),
  (str "SEA", str "Seattle Mariners", str "Mariners"),
  (str "SFG", str "San Francisco Giants", str "Giants"),
  (str "STL", str "St. Louis Cardinals", str "Cardinals"),
  (str "TBR", str "Tampa Bay Rays", str "Rays"),
  (str "TEX", str "Texas Rangers", str "Rangers"),
  (str "TOR", str "Toronto Blue Jays", str "Blue Jays"),
  (str "WSH", str "Washington Nationals", str "Nationals")]

/-- Dict lookup TEAM_INFO[abbr]. -/
def teamLookup (abbr : Str) : Option (Str × Str × Str) :=
  TEAM_INFO.find? fun e => decide (e.1 = abbr)

/-- MLB_RELEVANT_COLS (build.py line 52). -/
def MLB_RELEVANT_COLS : List Str :=
  [str "MLB Signing", str "Extension", str "Traded For", str "Traded Away",
   str "Waiver Claim", str "Lost off Waivers"]

/-- SKIP_COLS (build.py line 55). -/
def SKIP_COLS : List Str := [str "New Team"]

/-- The pairable primary category names (build.py line 179). -/
def PAIRABLE_COLS : List Str :=
  [str "Elected MLB FA/Non-tendered", str "Elected MiLB FA", str "Released"]

/-- One entry of ACCORDION_SECTIONS (build.py lines 58-73). -/
structure AccordionSection where
  title : Str
  columns : List Str
  subheaders : Bool
  paired_col : Option Str
deriving DecidableEq, Repr

/-- ACCORDION_SECTIONS (build.py lines 58-73). -/
def ACCORDION_SECTIONS : List AccordionSection := [
  ⟨str "MLB Signings", [str "MLB Signings"], false, none⟩,
  ⟨str "MiLB Signings", [str "MiLB Signings"], false, none⟩,
  ⟨str "International Signings", [str "Intl Amateur Signings"], false, none⟩,
  ⟨str "Trades", [str "Traded For", str "Traded Away"], true, none⟩,
  ⟨str "Extensions", [str "Extensions"], false, none⟩,
  ⟨str "Waiver Claims", [str "Waiver Claims"], false, none⟩,
  ⟨str "Lost off Waivers", [str "Lost off Waivers"], false, none⟩,
  ⟨str "Outrighted", [str "Outrighted"], false, none⟩,
  ⟨str "Added to 40-Man", [str "Added to 40-Man"], false, none⟩,
  ⟨str "Rule-5 Draft", [str "Rule-5 Draft Additions", str "Rule-5 Draft Losses"], true, none⟩,
  ⟨str "MLB Free Agents / Non-tendered", [str "Elected MLB FA/Non-tendered"], false, some (str "New Team")⟩,
  ⟨str "MiLB Free Agents", [str "Elected MiLB FA"], false, some (str "New Team")⟩,
  ⟨str "Released", [str "Released"], false, some (str "New Team")⟩,
  ⟨str "Retired", [str "Retired"], false, none⟩]

/-- A sheet cell: none models a pandas NaN / missing value. -/
abbrev Cell := Option Str

/-- A sheet: rectangular grid of cells, row-major (df.iloc[r, c]).
Rows or cells beyond the stored lists read as missing. -/
abbrev Grid := List (List Cell)

/-- df.iloc[r, c] with NaN for out-of-range (pandas pads short rows). -/
def cellVal (grid : Grid) (r c : Nat) : Cell :=
  (((grid.get? r).getD []).get? c).join

/-- Header map built from row index 1 (build.py lines 158-166): column
index paired with the trimmed header string, for non-NaN header cells,
in column order.  (The auxiliary header_positions map is write-only in the
source and is not modelled.) -/
def buildHeaders (grid : Grid) : List (Nat × Str) :=
  ((grid.get? 1).getD []).enum.filterMap fun p =>
    match p.2 with
    | some v => some (p.1, pyStrip v)
    | none => none

/-- Dict lookup headers[i]. -/
def headerAt (hs : List (Nat × Str)) (i : Nat) : Option Str :=
  (hs.find? fun p => p.1 = i).map (·.2)

/-- Paired-column detection (build.py lines 177-181): for the three pairable
primary categories, the immediately following column pairs when its header
is exactly 'New Team'. -/
def pairedIdxFor (hs : List (Nat × Str)) (col_idx : Nat) (col_name : Str) : Option Nat :=
  if col_name ∈ PAIRABLE_COLS ∧ headerAt hs (col_idx + 1) = some (str "New Team") then
    some (col_idx + 1)
  else none

/-- One data cell of one column (build.py lines 184-207): a transaction is
produced when the cell is non-NaN and non-blank after trimming; the paired
cell of the same row is read only in that case. -/
def rowTxn (team_abbr team_name : Str) (grid : Grid) (col_idx : Nat) (col_name : Str)
    (paired_col_idx : Option Nat) (row_idx : Nat) : Option Txn :=
  match cellVal grid row_idx col_idx with
  | none => none
  | some cell =>
    let raw_entry := pyStrip cell
    if raw_entry = [] then none
    else
      let pd := parse_date raw_entry
      let paired_value : Option Str :=
        match paired_col_idx with
        | none => none
        | some pidx =>
          match cellVal grid row_idx pidx with
          | none => none
          | some pcell => if pyStrip pcell = [] then none else some (pyStrip pcell)
      some ⟨team_abbr, team_name, col_name, pd.1, pd.2, raw_entry,
            decide (col_name ∈ MLB_RELEVANT_COLS), paired_value⟩

/-- All transactions of one column, data rows 2 .. len(df)-1 (build.py line 183). -/
def colTxns (team_abbr team_name : Str) (grid : Grid) (col_idx : Nat) (col_name : Str)
    (paired_col_idx : Option Nat) : List Txn :=
  (List.range' 2 (grid.length - 2)).filterMap
    (rowTxn team_abbr team_name grid col_idx col_name paired_col_idx)

/-- team_data[abbr][col_name].append(txn): dict update keyed by header name. -/
def appendTxn (td : Str → List Txn) (k : Str) (t : Txn) : Str → List Txn :=
  fun k2 => if k2 = k then td k2 ++ [t] else td k2

/-- The inner row loop of parse_excel for one column (build.py lines 183-210),
threading (all_transactions, team_data[abbr]). -/
def processRows (team_abbr team_name : Str) (grid : Grid) (col_idx : Nat) (col_name : Str)
    (pidx : Option Nat) (acc : List Txn × (Str → List Txn)) :
    List Txn × (Str → List Txn) :=
  (List.range' 2 (grid.length - 2)).foldl
    (fun acc row_idx =>
      match rowTxn team_abbr team_name grid col_idx col_name pidx row_idx with
      | none => acc
      | some txn => (acc.1 ++ [txn], appendTxn acc.2 col_name txn))
    acc

/-- Processing of one team sheet (build.py lines 155-210): build the header
map, then walk every non-skipped, non-blank-named column.  The dict
comprehension initialising team_data gives every bucket the empty list,
modelled by the initial function; the write-only '_paired' entry is not
modelled. -/
def processSheet (team_abbr : Str) (grid : Grid) : List Txn × (Str → List Txn) :=
  let team_name := ((teamLookup team_abbr).map (·.2.1)).getD []
  let hs := buildHeaders grid
  hs.foldl
    (fun acc p =>
      if p.2 ∈ SKIP_COLS ∨ p.2 = [] then acc
      else processRows team_abbr team_name grid p.1 p.2 (pairedIdxFor hs p.1 p.2) acc)
    ([], fun _ => [])

/-- The header columns actually iterated (not skipped, non-blank name). -/
def eligibleHeaders (grid : Grid) : List (Nat × Str) :=
  (buildHeaders grid).filter fun p => decide (p.2 ∉ SKIP_COLS ∧ p.2 ≠ [])

/-- Functional form of the flat per-sheet transaction list. -/
def sheetTxns (team_abbr : Str) (grid : Grid) : List Txn :=
  let team_name := ((teamLookup team_abbr).map (·.2.1)).getD []
  (eligibleHeaders grid).flatMap fun p =>
    colTxns team_abbr team_name grid p.1 p.2 (pairedIdxFor (buildHeaders grid) p.1 p.2)

/-- Functional form of the per-team category buckets. -/
def teamBucket (team_abbr : Str) (grid : Grid) (k : Str) : List Txn :=
  let team_name := ((teamLookup team_abbr).map (·.2.1)).getD []
  ((eligibleHeaders grid).filter fun p => decide (p.2 = k)).flatMap fun p =>
    colTxns team_abbr team_name grid p.1 p.2 (pairedIdxFor (buildHeaders grid) p.1 p.2)

/-- parse_excel over the whole workbook (build.py lines 144-215): skip the
'Indy Ball' sheet and unknown team codes, accumulate the flat list and the
per-team buckets, then sort the flat list chronologically.  (Sheet names
in a workbook are unique; the dict overwrite Python would perform on a
repeated name is not modelled - this list gains one entry per sheet.) -/
def parse_excel (sheets : List (Str × Grid)) :
    List Txn × List (Str × (Str → List Txn)) :=
  let raw :=
    sheets.foldl
      (fun acc sg =>
        if sg.1 = str "Indy Ball" ∨ teamLookup sg.1 = none then acc
        else
          let pr := processSheet sg.1 sg.2
          (acc.1 ++ pr.1, acc.2 ++ [(sg.1, pr.2)]))
      ([], [])
  (sortByDate raw.1, raw.2)

/-- The files written by build_site (build.py lines 1232-1259): index.html,
then one page per processed team sheet, named by the lowercased team code.
No stylesheet or script file is written (CSS and the search script are
inlined into the generated pages). -/
def build_site_outputs (sheets : List (Str × Grid)) : List Str :=
  str "index.html" :: (parse_excel sheets).2.map fun p => pyLower p.1 ++ str ".html"

/-- transactions_by_col built in generate_team_page (build.py lines 352-358):
section columns in order, absent categories giving the empty list. -/
def transactions_by_col (td : Str → List Txn) (cols : List Str) : List (Str × List Txn) :=
  cols.map fun c => (c, td c)

/-- The flattening in generate_accordion_section (build.py lines 278-280). -/
def accordion_all (tbc : List (Str × List Txn)) : List Txn :=
  tbc.flatMap (·.2)

/-- The displayed count of a section (build.py line 286). -/
def accordion_count (tbc : List (Str × List Txn)) : Nat :=
  (accordion_all tbc).length

/-- The transactions rendered inside a section, in render order (build.py
lines 288-324): with subheaders over more than one column, each column is
sorted independently; otherwise the merged list is sorted once.  (Columns
with no transactions contribute nothing in either mode.) -/
def accordion_items (tbc : List (Str × List Txn)) (use_subheaders : Bool) : List Txn :=
  if use_subheaders ∧ tbc.length > 1 then tbc.flatMap fun p => sortByDate p.2
  else sortByDate (accordion_all tbc)

/-- The observable content of one rendered accordion section. -/
structure RenderedSection where
  title : Str
  columns : List Str
  count : Nat
  items : List Txn
deriving DecidableEq, Repr

/-- The sections rendered on a team page (build.py lines 349-370): a section
is emitted only when some of its columns hold a transaction. -/
def renderSecs (secs : List AccordionSection) (td : Str → List Txn) :
    List RenderedSection :=
  secs.filterMap fun sec =>
    let tbc := transactions_by_col td sec.columns
    if accordion_all tbc = [] then none
    else some ⟨sec.title, sec.columns, accordion_count tbc,
               accordion_items tbc sec.subheaders⟩

/-- All sections of a team page (generate_team_page, build.py lines 349-370). -/
def team_page_sections (td : Str → List Txn) : List RenderedSection :=
  renderSecs ACCORDION_SECTIONS td

/-- Python html.escape with quote=True: per-character entity replacement
(the source's sequential str.replace calls, with the ampersand first, are
equivalent to this single pass). -/
def html_escape : Str → Str
  | [] => []
  | c :: rest =>
    (if c = '&' then str "&amp;"
     else if c = '<' then str "&lt;"
     else if c = '>' then str "&gt;"
     else if c = '"' then str "&quot;"
     else if c = '\'' then str "&#x27;"
     else [c]) ++ html_escape rest

/-- escape (build.py lines 218-220). -/
def escape (s : Str) : Str := if s = [] then [] else html_escape s

/-- Matching helper for the pattern tilde-tilde dot-plus-nongreedy
tilde-tilde: given the text after an opening marker, find the shortest
non-empty run of non-newline characters followed by a closing marker.
Returns (content, text after the closing marker). -/
def grabContent : Str → Option (Str × Str)
  | [] => none
  | c :: rest =>
    if c = '\n' then none
    else
      match rest with
      | '~' :: '~' :: r => some ([c], r)
      | _ => (grabContent rest).map fun p => (c :: p.1, p.2)

/-- A successful match decomposes the scanned text. -/
theorem grabContent_eq : ∀ (l : Str) (p : Str × Str), grabContent l = some p →
    l = p.1 ++ '~' :: '~' :: p.2 := by
  intro l
  induction l with
  | nil => intro p h; simp [grabContent] at h
  | cons c rest ih =>
    intro p h
    simp only [grabContent] at h
    split at h
    · exact absurd h (by simp)
    · split at h
      · simp only [Option.some.injEq] at h
        cases h
        rfl
      · simp only [Option.map_eq_some'] at h
        obtain ⟨q, hq, hpq⟩ := h
        subst hpq
        have := ih q hq
        simp only [this]
        rfl

/-- The Python re.sub for the strikethrough pattern: leftmost shortest
matches of tilde-tilde content tilde-tilde become an s element; scanning
resumes after each replacement (build.py line 232). -/
def subStrike : Str → Str
  | [] => []
  | '~' :: '~' :: rest =>
    match h : grabContent rest with
    | some p => '<' :: 's' :: '>' :: (p.1 ++ '<' :: '/' :: 's' :: '>' :: subStrike p.2)
    | none => '~' :: subStrike ('~' :: rest)
  | c :: rest => c :: subStrike rest
termination_by l => l.length
decreasing_by
  all_goals first
    | (have h2 := grabContent_eq rest p h
       simp only [h2, List.length_append, List.length_cons]
       omega)
    | simp

/-- Matching helper for the italic pattern underscore nonunderscore-plus
nongreedy underscore with lookarounds: given the text after an opening
underscore, the content is a non-empty run of non-underscore characters,
the closing underscore must not be followed by another underscore. -/
def italGrab : Str → Option (Str × Str)
  | [] => none
  | c :: rest =>
    if c = '_' then none
    else
      match rest with
      | '_' :: '_' :: _ => none
      | '_' :: r => some ([c], r)
      | _ => (italGrab rest).map fun p => (c :: p.1, p.2)

/-- A successful italic match decomposes the scanned text. -/
theorem italGrab_eq : ∀ (l : Str) (p : Str × Str), italGrab l = some p →
    l = p.1 ++ '_' :: p.2 := by
  intro l
  induction l with
  | nil => intro p h; simp [italGrab] at h
  | cons c rest ih =>
    intro p h
    simp only [italGrab] at h
    split at h
    · exact absurd h (by simp)
    · split at h
      · exact absurd h (by simp)
      · simp only [Option.some.injEq] at h
        cases h
        rfl
      · simp only [Option.map_eq_some'] at h
        obtain ⟨q, hq, hpq⟩ := h
        subst hpq
        have := ih q hq
        simp only [this]
        rfl

/-- The Python re.sub for the italic pattern (build.py line 236), with the
negative lookbehind tracked through the previous original character. -/
def subItalicGo (prev : Option Char) : Str → Str
  | [] => []
  | '_' :: rest =>
    if prev = some '_' then '_' :: subItalicGo (some '_') rest
    else
      match h : italGrab rest with
      | some p =>
        '<' :: 'e' :: 'm' :: '>' ::
          (p.1 ++ '<' :: '/' :: 'e' :: 'm' :: '>' :: subItalicGo (some '_') p.2)
      | none => '_' :: subItalicGo (some '_') rest
  | c :: rest => c :: subItalicGo (some c) rest
termination_by l => l.length
decreasing_by
  all_goals first
    | (have h2 := italGrab_eq rest p h
       simp only [h2, List.length_append, List.length_cons]
       omega)
    | simp

/-- format_entry (build.py lines 223-238): escape the whole string first,
then run the strikethrough substitution, then the italic substitution. -/
def format_entry (s : Str) : Str :=
  if s = [] then [] else subItalicGo none (subStrike (html_escape s))

/-- Output shape of html_escape: a sequence of the five escape entities and
characters that are none of ampersand, less-than, greater-than. -/
inductive EscP : Str → Prop where
  | nil : EscP []
  | amp (rest : Str) : EscP rest → EscP ('&' :: 'a' :: 'm' :: 'p' :: ';' :: rest)
  | elt (rest : Str) : EscP rest → EscP ('&' :: 'l' :: 't' :: ';' :: rest)
  | egt (rest : Str) : EscP rest → EscP ('&' :: 'g' :: 't' :: ';' :: rest)
  | equot (rest : Str) : EscP rest → EscP ('&' :: 'q' :: 'u' :: 'o' :: 't' :: ';' :: rest)
  | eapos (rest : Str) : EscP rest → EscP ('&' :: '#' :: 'x' :: '2' :: '7' :: ';' :: rest)
  | chr (c : Char) (rest : Str) : c ≠ '&' → c ≠ '<' → c ≠ '>' → EscP rest → EscP (c :: rest)

/-- Injection-safety shape: a sequence of the four inserted markup elements,
the five escape entities, and characters that are none of ampersand,
less-than, greater-than.  In such a string every markup character belongs
to a formatter-inserted element or to an escape entity. -/
inductive SafeP : Str → Prop where
  | nil : SafeP []
  | tagS (rest : Str) : SafeP rest → SafeP ('<' :: 's' :: '>' :: rest)
  | tagSc (rest : Str) : SafeP rest → SafeP ('<' :: '/' :: 's' :: '>' :: rest)
  | tagEm (rest : Str) : SafeP rest → SafeP ('<' :: 'e' :: 'm' :: '>' :: rest)
  | tagEmc (rest : Str) : SafeP rest → SafeP ('<' :: '/' :: 'e' :: 'm' :: '>' :: rest)
  | amp (rest : Str) : SafeP rest → SafeP ('&' :: 'a' :: 'm' :: 'p' :: ';' :: rest)
  | elt (rest : Str) : SafeP rest → SafeP ('&' :: 'l' :: 't' :: ';' :: rest)
  | egt (rest : Str) : SafeP rest → SafeP ('&' :: 'g' :: 't' :: ';' :: rest)
  | equot (rest : Str) : SafeP rest → SafeP ('&' :: 'q' :: 'u' :: 'o' :: 't' :: ';' :: rest)
  | eapos (rest : Str) : SafeP rest → SafeP ('&' :: '#' :: 'x' :: '2' :: '7' :: ';' :: rest)
  | chr (c : Char) (rest : Str) : c ≠ '&' → c ≠ '<' → c ≠ '>' → SafeP rest → SafeP (c :: rest)

theorem subStrike_nil : subStrike [] = [] := by
  rw [subStrike.eq_def]

theorem subStrike_cons_ne (c : Char) (l : Str) (h : c ≠ '~') :
    subStrike (c :: l) = c :: subStrike l := by
  rw [subStrike.eq_def]
  split
  · rename_i heq
    exact absurd heq (by simp)
  · rename_i heq
    injection heq with h1 _
    exact absurd h1 h
  · rename_i heq
    injection heq with h1 h2
    rw [← h1, ← h2]

theorem subStrike_tilde_nil : subStrike ['~'] = ['~'] := by
  rw [subStrike.eq_def]
  show '~' :: subStrike [] = ['~']
  rw [subStrike_nil]

theorem subStrike_tilde_ne (c : Char) (l : Str) (h : c ≠ '~') :
    subStrike ('~' :: c :: l) = '~' :: subStrike (c :: l) := by
  rw [subStrike.eq_def]
  split
  · rename_i heq
    exact absurd heq (by simp)
  · rename_i heq
    injection heq with _ h2
    injection h2 with h3 _
    exact absurd h3 h
  · rename_i heq
    injection heq with h1 h2
    rw [← h1, ← h2]

theorem subStrike_strike_some (l : Str) (p : Str × Str) (h : grabContent l = some p) :
    subStrike ('~' :: '~' :: l) =
      '<' :: 's' :: '>' :: (p.1 ++ '<' :: '/' :: 's' :: '>' :: subStrike p.2) := by
  rw [subStrike.eq_def]
  split
  · rename_i heq
    exact absurd heq (by simp)
  · rename_i rest heq
    injection heq with _ h2
    injection h2 with _ h3
    subst h3
    split
    · rename_i p2 hg
      rw [h] at hg
      injection hg with h4
      rw [h4]
    · rename_i hg
      rw [h] at hg
      exact absurd hg (by simp)
  · rename_i hx heq
    injection heq with h1 h2
    exact (hx l h1.symm h2.symm).elim

theorem subStrike_strike_none (l : Str) (h : grabContent l = none) :
    subStrike ('~' :: '~' :: l) = '~' :: subStrike ('~' :: l) := by
  rw [subStrike.eq_def]
  split
  · rename_i heq
    exact absurd heq (by simp)
  · rename_i rest heq
    injection heq with _ h2
    injection h2 with _ h3
    subst h3
    split
    · rename_i p2 hg
      rw [h] at hg
      exact absurd hg (by simp)
    · rfl
  · rename_i hx heq
    injection heq with h1 h2
    exact (hx l h1.symm h2.symm).elim

theorem subItalicGo_nil (prev : Option Char) : subItalicGo prev [] = [] := by
  rw [subItalicGo.eq_def]

theorem subItalicGo_cons_ne (prev : Option Char) (c : Char) (l : Str) (h : c ≠ '_') :
    subItalicGo prev (c :: l) = c :: subItalicGo (some c) l := by
  rw [subItalicGo.eq_def]
  split
  · rename_i heq
    exact absurd heq (by simp)
  · rename_i heq
    injection heq with h1 _
    exact absurd h1 h
  · rename_i heq
    injection heq with h1 h2
    rw [← h1, ← h2]

theorem subItalicGo_us_prev (l : Str) :
    subItalicGo (some '_') ('_' :: l) = '_' :: subItalicGo (some '_') l := by
  rw [subItalicGo.eq_def]
  split
  · rename_i heq
    exact absurd heq (by simp)
  · rename_i heq
    injection heq with _ h2
    subst h2
    rw [if_pos rfl]
  · rename_i hx heq
    injection heq with h1 h2
    exact (hx h1.symm).elim

theorem subItalicGo_us_some (prev : Option Char) (l : Str) (p : Str × Str)
    (hp : prev ≠ some '_') (hg : italGrab l = some p) :
    subItalicGo prev ('_' :: l) =
      '<' :: 'e' :: 'm' :: '>' ::
        (p.1 ++ '<' :: '/' :: 'e' :: 'm' :: '>' :: subItalicGo (some '_') p.2) := by
  rw [subItalicGo.eq_def]
  split
  · rename_i heq
    exact absurd heq (by simp)
  · rename_i heq
    injection heq with _ h2
    subst h2
    rw [if_neg hp]
    split
    · rename_i p2 hg2
      rw [hg] at hg2
      injection hg2 with h4
      rw [h4]
    · rename_i hg2
      rw [hg] at hg2
      exact absurd hg2 (by simp)
  · rename_i hx heq
    injection heq with h1 h2
    exact (hx h1.symm).elim

theorem subItalicGo_us_none (prev : Option Char) (l : Str)
    (hp : prev ≠ some '_') (hg : italGrab l = none) :
    subItalicGo prev ('_' :: l) = '_' :: subItalicGo (some '_') l := by
  rw [subItalicGo.eq_def]
  split
  · rename_i heq
    exact absurd heq (by simp)
  · rename_i heq
    injection heq with _ h2
    subst h2
    rw [if_neg hp]
    split
    · rename_i p2 hg2
      rw [hg] at hg2
      exact absurd hg2 (by simp)
    · rfl
  · rename_i hx heq
    injection heq with h1 h2
    exact (hx h1.symm).elim

/-- Splitting an appended string at a distinguished character: either the
split point lies past the first part, or the character occurs in it. -/
theorem append_split {x : Char} : ∀ (cs : Str) {rest a b : Str},
    cs ++ rest = a ++ x :: b →
    (∃ a2, a = cs ++ a2 ∧ rest = a2 ++ x :: b) ∨ x ∈ cs := by
  intro cs
  induction cs with
  | nil =>
    intro rest a b h
    exact Or.inl ⟨a, rfl, h⟩
  | cons c cs ih =>
    intro rest a b h
    cases a with
    | nil =>
      simp only [List.nil_append] at h
      injection h with e1 _
      subst e1
      exact Or.inr (List.mem_cons_self _ _)
    | cons a0 a1 =>
      simp only [List.cons_append] at h
      injection h with e1 e2
      subst e1
      rcases ih e2 with ⟨a2, ha, hr⟩ | hm
      · subst ha
        exact Or.inl ⟨a2, rfl, hr⟩
      · exact Or.inr (List.mem_cons_of_mem _ hm)

/-- Peeling one plain character off an escaped string. -/
theorem escP_chr_inv {c : Char} {rest : Str} (h : EscP (c :: rest)) (hne : c ≠ '&') :
    EscP rest ∧ c ≠ '<' ∧ c ≠ '>' := by
  cases h with
  | amp _ _ => exact absurd rfl hne
  | elt _ _ => exact absurd rfl hne
  | egt _ _ => exact absurd rfl hne
  | equot _ _ => exact absurd rfl hne
  | eapos _ _ => exact absurd rfl hne
  | chr _ _ h1 h2 h3 h4 => exact ⟨h4, h2, h3⟩

/-- Peeling one plain character off an injection-safe string. -/
theorem safeP_chr_inv {c : Char} {rest : Str} (h : SafeP (c :: rest))
    (h1 : c ≠ '&') (h2 : c ≠ '<') : SafeP rest ∧ c ≠ '>' := by
  cases h with
  | tagS _ _ => exact absurd rfl h2
  | tagSc _ _ => exact absurd rfl h2
  | tagEm _ _ => exact absurd rfl h2
  | tagEmc _ _ => exact absurd rfl h2
  | amp _ _ => exact absurd rfl h1
  | elt _ _ => exact absurd rfl h1
  | egt _ _ => exact absurd rfl h1
  | equot _ _ => exact absurd rfl h1
  | eapos _ _ => exact absurd rfl h1
  | chr _ _ g1 g2 g3 g4 => exact ⟨g4, g3⟩

/-- An escaped string splits at any tilde into two escaped strings (no
escape entity contains a tilde). -/
theorem escP_split {l : Str} (hl : EscP l) : ∀ {a b : Str},
    l = a ++ '~' :: b → EscP a ∧ EscP b := by
  induction hl with
  | nil =>
    intro a b h
    exact absurd h (by simp)
  | amp rest h0 ih =>
    intro a b heq
    rcases append_split (['&', 'a', 'm', 'p', ';'] : Str) heq with ⟨a2, ha, hr⟩ | hm
    · obtain ⟨h1, h2⟩ := ih hr
      subst ha
      exact ⟨EscP.amp a2 h1, h2⟩
    · exact absurd hm (by decide)
  | elt rest h0 ih =>
    intro a b heq
    rcases append_split (['&', 'l', 't', ';'] : Str) heq with ⟨a2, ha, hr⟩ | hm
    · obtain ⟨h1, h2⟩ := ih hr
      subst ha
      exact ⟨EscP.elt a2 h1, h2⟩
    · exact absurd hm (by decide)
  | egt rest h0 ih =>
    intro a b heq
    rcases append_split (['&', 'g', 't', ';'] : Str) heq with ⟨a2, ha, hr⟩ | hm
    · obtain ⟨h1, h2⟩ := ih hr
      subst ha
      exact ⟨EscP.egt a2 h1, h2⟩
    · exact absurd hm (by decide)
  | equot rest h0 ih =>
    intro a b heq
    rcases append_split (['&', 'q', 'u', 'o', 't', ';'] : Str) heq with ⟨a2, ha, hr⟩ | hm
    · obtain ⟨h1, h2⟩ := ih hr
      subst ha
      exact ⟨EscP.equot a2 h1, h2⟩
    · exact absurd hm (by decide)
  | eapos rest h0 ih =>
    intro a b heq
    rcases append_split (['&', '#', 'x', '2', '7', ';'] : Str) heq with ⟨a2, ha, hr⟩ | hm
    · obtain ⟨h1, h2⟩ := ih hr
      subst ha
      exact ⟨EscP.eapos a2 h1, h2⟩
    · exact absurd hm (by decide)
  | chr c rest hc1 hc2 hc3 h0 ih =>
    intro a b heq
    cases a with
    | nil =>
      simp only [List.nil_append] at heq
      injection heq with e1 e2
      subst e2
      exact ⟨EscP.nil, h0⟩
    | cons a0 a1 =>
      simp only [List.cons_append] at heq
      injection heq with e1 e2
      subst e1
      obtain ⟨hA, hB⟩ := ih e2
      exact ⟨EscP.chr c a1 hc1 hc2 hc3 hA, hB⟩

/-- An injection-safe string splits at any underscore into two
injection-safe strings (no inserted element or entity contains one). -/
theorem safeP_split {l : Str} (hl : SafeP l) : ∀ {a b : Str},
    l = a ++ '_' :: b → SafeP a ∧ SafeP b := by
  induction hl with
  | nil =>
    intro a b h
    exact absurd h (by simp)
  | tagS rest h0 ih =>
    intro a b heq
    rcases append_split (['<', 's', '>'] : Str) heq with ⟨a2, ha, hr⟩ | hm
    · obtain ⟨h1, h2⟩ := ih hr
      subst ha
      exact ⟨SafeP.tagS a2 h1, h2⟩
    · exact absurd hm (by decide)
  | tagSc rest h0 ih =>
    intro a b heq
    rcases append_split (['<', '/', 's', '>'] : Str) heq with ⟨a2, ha, hr⟩ | hm
    · obtain ⟨h1, h2⟩ := ih hr
      subst ha
      exact ⟨SafeP.tagSc a2 h1, h2⟩
    · exact absurd hm (by decide)
  | tagEm rest h0 ih =>
    intro a b heq
    rcases append_split (['<', 'e', 'm', '>'] : Str) heq with ⟨a2, ha, hr⟩ | hm
    · obtain ⟨h1, h2⟩ := ih hr
      subst ha
      exact ⟨SafeP.tagEm a2 h1, h2⟩
    · exact absurd hm (by decide)
  | tagEmc rest h0 ih =>
    intro a b heq
    rcases append_split (['<', '/', 'e', 'm', '>'] : Str) heq with ⟨a2, ha, hr⟩ | hm
    · obtain ⟨h1, h2⟩ := ih hr
      subst ha
      exact ⟨SafeP.tagEmc a2 h1, h2⟩
    · exact absurd hm (by decide)
  | amp rest h0 ih =>
    intro a b heq
    rcases append_split (['&', 'a', 'm', 'p', ';'] : Str) heq with ⟨a2, ha, hr⟩ | hm
    · obtain ⟨h1, h2⟩ := ih hr
      subst ha
      exact ⟨SafeP.amp a2 h1, h2⟩
    · exact absurd hm (by decide)
  | elt rest h0 ih =>
    intro a b heq
    rcases append_split (['&', 'l', 't', ';'] : Str) heq with ⟨a2, ha, hr⟩ | hm
    · obtain ⟨h1, h2⟩ := ih hr
      subst ha
      exact ⟨SafeP.elt a2 h1, h2⟩
    · exact absurd hm (by decide)
  | egt rest h0 ih =>
    intro a b heq
    rcases append_split (['&', 'g', 't', ';'] : Str) heq with ⟨a2, ha, hr⟩ | hm
    · obtain ⟨h1, h2⟩ := ih hr
      subst ha
      exact ⟨SafeP.egt a2 h1, h2⟩
    · exact absurd hm (by decide)
  | equot rest h0 ih =>
    intro a b heq
    rcases append_split (['&', 'q', 'u', 'o', 't', ';'] : Str) heq with ⟨a2, ha, hr⟩ | hm
    · obtain ⟨h1, h2⟩ := ih hr
      subst ha
      exact ⟨SafeP.equot a2 h1, h2⟩
    · exact absurd hm (by decide)
  | eapos rest h0 ih =>
    intro a b heq
    rcases append_split (['&', '#', 'x', '2', '7', ';'] : Str) heq with ⟨a2, ha, hr⟩ | hm
    · obtain ⟨h1, h2⟩ := ih hr
      subst ha
      exact ⟨SafeP.eapos a2 h1, h2⟩
    · exact absurd hm (by decide)
  | chr c rest hc1 hc2 hc3 h0 ih =>
    intro a b heq
    cases a with
    | nil =>
      simp only [List.nil_append] at heq
      injection heq with e1 e2
      subst e2
      exact ⟨SafeP.nil, h0⟩
    | cons a0 a1 =>
      simp only [List.cons_append] at heq
      injection heq with e1 e2
      subst e1
      obtain ⟨hA, hB⟩ := ih e2
      exact ⟨SafeP.chr c a1 hc1 hc2 hc3 hA, hB⟩

/-- Injection safety is closed under concatenation. -/
theorem safeP_append {a b : Str} (ha : SafeP a) (hb : SafeP b) : SafeP (a ++ b) := by
  induction ha with
  | nil => exact hb
  | tagS rest h ih => exact SafeP.tagS _ ih
  | tagSc rest h ih => exact SafeP.tagSc _ ih
  | tagEm rest h ih => exact SafeP.tagEm _ ih
  | tagEmc rest h ih => exact SafeP.tagEmc _ ih
  | amp rest h ih => exact SafeP.amp _ ih
  | elt rest h ih => exact SafeP.elt _ ih
  | egt rest h ih => exact SafeP.egt _ ih
  | equot rest h ih => exact SafeP.equot _ ih
  | eapos rest h ih => exact SafeP.eapos _ ih
  | chr c rest h1 h2 h3 h ih => exact SafeP.chr c _ h1 h2 h3 ih

/-- Escaped strings are injection-safe (they contain no markup at all). -/
theorem escP_safeP {l : Str} (h : EscP l) : SafeP l := by
  induction h with
  | nil => exact SafeP.nil
  | amp rest h ih => exact SafeP.amp _ ih
  | elt rest h ih => exact SafeP.elt _ ih
  | egt rest h ih => exact SafeP.egt _ ih
  | equot rest h ih => exact SafeP.equot _ ih
  | eapos rest h ih => exact SafeP.eapos _ ih
  | chr c rest h1 h2 h3 h ih => exact SafeP.chr c _ h1 h2 h3 ih

/-- html_escape only produces entities and plain characters. -/
theorem html_escape_escP : ∀ s : Str, EscP (html_escape s) := by
  intro s
  induction s with
  | nil => exact EscP.nil
  | cons c rest ih =>
    simp only [html_escape]
    split
    · exact EscP.amp _ ih
    · split
      · exact EscP.elt _ ih
      · split
        · exact EscP.egt _ ih
        · split
          · exact EscP.equot _ ih
          · split
            · exact EscP.eapos _ ih
            · rename_i h1 h2 h3 _ _
              exact EscP.chr c _ h1 h2 h3 ih

/-- The strikethrough substitution of an escaped string is injection-safe:
it only inserts the s element around content drawn from the input. -/
theorem subStrike_safe : ∀ (n : Nat) (l : Str), l.length ≤ n → EscP l →
    SafeP (subStrike l) := by
  intro n
  induction n with
  | zero =>
    intro l hl _
    have hz : l = [] := List.eq_nil_of_length_eq_zero (Nat.le_zero.mp hl)
    subst hz
    rw [subStrike_nil]
    exact SafeP.nil
  | succ n ih =>
    intro l hl he
    cases he with
    | nil =>
      rw [subStrike_nil]
      exact SafeP.nil
    | amp rest h0 =>
      rw [subStrike_cons_ne '&' _ (by decide), subStrike_cons_ne 'a' _ (by decide),
          subStrike_cons_ne 'm' _ (by decide), subStrike_cons_ne 'p' _ (by decide),
          subStrike_cons_ne ';' _ (by decide)]
      exact SafeP.amp _ (ih rest (by simp only [List.length_cons] at hl; omega) h0)
    | elt rest h0 =>
      rw [subStrike_cons_ne '&' _ (by decide), subStrike_cons_ne 'l' _ (by decide),
          subStrike_cons_ne 't' _ (by decide), subStrike_cons_ne ';' _ (by decide)]
      exact SafeP.elt _ (ih rest (by simp only [List.length_cons] at hl; omega) h0)
    | egt rest h0 =>
      rw [subStrike_cons_ne '&' _ (by decide), subStrike_cons_ne 'g' _ (by decide),
          subStrike_cons_ne 't' _ (by decide), subStrike_cons_ne ';' _ (by decide)]
      exact SafeP.egt _ (ih rest (by simp only [List.length_cons] at hl; omega) h0)
    | equot rest h0 =>
      rw [subStrike_cons_ne '&' _ (by decide), subStrike_cons_ne 'q' _ (by decide),
          subStrike_cons_ne 'u' _ (by decide), subStrike_cons_ne 'o' _ (by decide),
          subStrike_cons_ne 't' _ (by decide), subStrike_cons_ne ';' _ (by decide)]
      exact SafeP.equot _ (ih rest (by simp only [List.length_cons] at hl; omega) h0)
    | eapos rest h0 =>
      rw [subStrike_cons_ne '&' _ (by decide), subStrike_cons_ne '#' _ (by decide),
          subStrike_cons_ne 'x' _ (by decide), subStrike_cons_ne '2' _ (by decide),
          subStrike_cons_ne '7' _ (by decide), subStrike_cons_ne ';' _ (by decide)]
      exact SafeP.eapos _ (ih rest (by simp only [List.length_cons] at hl; omega) h0)
    | chr c rest hc1 hc2 hc3 h0 =>
      by_cases hc : c = '~'
      · subst hc
        cases rest with
        | nil =>
          rw [subStrike_tilde_nil]
          exact SafeP.chr '~' [] (by decide) (by decide) (by decide) SafeP.nil
        | cons c2 rest1 =>
          by_cases hc2 : c2 = '~'
          · subst hc2
            have h1 : EscP rest1 := (escP_chr_inv h0 (by decide)).1
            cases hg : grabContent rest1 with
            | some p =>
              rw [subStrike_strike_some _ _ hg]
              have hd := grabContent_eq rest1 p hg
              have hsplit := escP_split h1 hd
              have hp2 : EscP p.2 := (escP_chr_inv hsplit.2 (by decide)).1
              have hlen : p.2.length ≤ n := by
                have hL := congrArg List.length hd
                simp only [List.length_append, List.length_cons] at hL
                simp only [List.length_cons] at hl
                omega
              exact SafeP.tagS _
                (safeP_append (escP_safeP hsplit.1)
                  (SafeP.tagSc _ (ih p.2 hlen hp2)))
            | none =>
              rw [subStrike_strike_none _ hg]
              exact SafeP.chr '~' _ (by decide) (by decide) (by decide)
                (ih ('~' :: rest1) (by simp only [List.length_cons] at hl ⊢; omega) h0)
          · rw [subStrike_tilde_ne c2 rest1 hc2]
            exact SafeP.chr '~' _ (by decide) (by decide) (by decide)
              (ih (c2 :: rest1) (by simp only [List.length_cons] at hl ⊢; omega) h0)
      · rw [subStrike_cons_ne c _ hc]
        exact SafeP.chr c _ hc1 hc2 hc3
          (ih rest (by simp only [List.length_cons] at hl; omega) h0)

/-- The italic substitution preserves injection safety: it only inserts
the em element around content drawn between two underscores. -/
theorem subItalicGo_safe : ∀ (n : Nat) (l : Str) (prev : Option Char), l.length ≤ n →
    SafeP l → SafeP (subItalicGo prev l) := by
  intro n
  induction n with
  | zero =>
    intro l prev hl _
    have hz : l = [] := List.eq_nil_of_length_eq_zero (Nat.le_zero.mp hl)
    subst hz
    rw [subItalicGo_nil]
    exact SafeP.nil
  | succ n ih =>
    intro l prev hl hs
    cases hs with
    | nil =>
      rw [subItalicGo_nil]
      exact SafeP.nil
    | tagS rest h0 =>
      rw [subItalicGo_cons_ne _ '<' _ (by decide), subItalicGo_cons_ne _ 's' _ (by decide),
          subItalicGo_cons_ne _ '>' _ (by decide)]
      exact SafeP.tagS _ (ih rest _ (by simp only [List.length_cons] at hl; omega) h0)
    | tagSc rest h0 =>
      rw [subItalicGo_cons_ne _ '<' _ (by decide), subItalicGo_cons_ne _ '/' _ (by decide),
          subItalicGo_cons_ne _ 's' _ (by decide), subItalicGo_cons_ne _ '>' _ (by decide)]
      exact SafeP.tagSc _ (ih rest _ (by simp only [List.length_cons] at hl; omega) h0)
    | tagEm rest h0 =>
      rw [subItalicGo_cons_ne _ '<' _ (by decide), subItalicGo_cons_ne _ 'e' _ (by decide),
          subItalicGo_cons_ne _ 'm' _ (by decide), subItalicGo_cons_ne _ '>' _ (by decide)]
      exact SafeP.tagEm _ (ih rest _ (by simp only [List.length_cons] at hl; omega) h0)
    | tagEmc rest h0 =>
      rw [subItalicGo_cons_ne _ '<' _ (by decide), subItalicGo_cons_ne _ '/' _ (by decide),
          subItalicGo_cons_ne _ 'e' _ (by decide), subItalicGo_cons_ne _ 'm' _ (by decide),
          subItalicGo_cons_ne _ '>' _ (by decide)]
      exact SafeP.tagEmc _ (ih rest _ (by simp only [List.length_cons] at hl; omega) h0)
    | amp rest h0 =>
      rw [subItalicGo_cons_ne _ '&' _ (by decide), subItalicGo_cons_ne _ 'a' _ (by decide),
          subItalicGo_cons_ne _ 'm' _ (by decide), subItalicGo_cons_ne _ 'p' _ (by decide),
          subItalicGo_cons_ne _ ';' _ (by decide)]
      exact SafeP.amp _ (ih rest _ (by simp only [List.length_cons] at hl; omega) h0)
    | elt rest h0 =>
      rw [subItalicGo_cons_ne _ '&' _ (by decide), subItalicGo_cons_ne _ 'l' _ (by decide),
          subItalicGo_cons_ne _ 't' _ (by decide), subItalicGo_cons_ne _ ';' _ (by decide)]
      exact SafeP.elt _ (ih rest _ (by simp only [List.length_cons] at hl; omega) h0)
    | egt rest h0 =>
      rw [subItalicGo_cons_ne _ '&' _ (by decide), subItalicGo_cons_ne _ 'g' _ (by decide),
          subItalicGo_cons_ne _ 't' _ (by decide), subItalicGo_cons_ne _ ';' _ (by decide)]
      exact SafeP.egt _ (ih rest _ (by simp only [List.length_cons] at hl; omega) h0)
    | equot rest h0 =>
      rw [subItalicGo_cons_ne _ '&' _ (by decide), subItalicGo_cons_ne _ 'q' _ (by decide),
          subItalicGo_cons_ne _ 'u' _ (by decide), subItalicGo_cons_ne _ 'o' _ (by decide),
          subItalicGo_cons_ne _ 't' _ (by decide), subItalicGo_cons_ne _ ';' _ (by decide)]
      exact SafeP.equot _ (ih rest _ (by simp only [List.length_cons] at hl; omega) h0)
    | eapos rest h0 =>
      rw [subItalicGo_cons_ne _ '&' _ (by decide), subItalicGo_cons_ne _ '#' _ (by decide),
          subItalicGo_cons_ne _ 'x' _ (by decide), subItalicGo_cons_ne _ '2' _ (by decide),
          subItalicGo_cons_ne _ '7' _ (by decide), subItalicGo_cons_ne _ ';' _ (by decide)]
      exact SafeP.eapos _ (ih rest _ (by simp only [List.length_cons] at hl; omega) h0)
    | chr c rest hc1 hc2 hc3 h0 =>
      by_cases hc : c = '_'
      · subst hc
        by_cases hp : prev = some '_'
        · rw [hp, subItalicGo_us_prev]
          exact SafeP.chr '_' _ (by decide) (by decide) (by decide)
            (ih rest _ (by simp only [List.length_cons] at hl; omega) h0)
        · cases hg : italGrab rest with
          | some p =>
            rw [subItalicGo_us_some prev rest p hp hg]
            have hd := italGrab_eq rest p hg
            have hsplit := safeP_split h0 hd
            have hlen : p.2.length ≤ n := by
              have hL := congrArg List.length hd
              simp only [List.length_append, List.length_cons] at hL
              simp only [List.length_cons] at hl
              omega
            exact SafeP.tagEm _
              (safeP_append hsplit.1 (SafeP.tagEmc _ (ih p.2 _ hlen hsplit.2)))
          | none =>
            rw [subItalicGo_us_none prev rest hp hg]
            exact SafeP.chr '_' _ (by decide) (by decide) (by decide)
              (ih rest _ (by simp only [List.length_cons] at hl; omega) h0)
      · rw [subItalicGo_cons_ne prev c rest hc]
        exact SafeP.chr c _ hc1 hc2 hc3
          (ih rest _ (by simp only [List.length_cons] at hl; omega) h0)

/-- The row loop of one column appends that column's transactions to the
flat list and to the bucket named by the column header. -/
theorem processRows_general (f : Nat → Option Txn) (col_name : Str) :
    ∀ (rows : List Nat) (acc : List Txn × (Str → List Txn)),
      rows.foldl (fun acc row_idx =>
        match f row_idx with
        | none => acc
        | some txn => (acc.1 ++ [txn], appendTxn acc.2 col_name txn)) acc =
      (acc.1 ++ rows.filterMap f,
       fun k => if k = col_name then acc.2 k ++ rows.filterMap f else acc.2 k) := by
  intro rows
  induction rows with
  | nil =>
    intro acc
    simp only [List.foldl_nil, List.filterMap_nil, List.append_nil, ite_self]
  | cons r rows ih =>
    intro acc
    simp only [List.foldl_cons, List.filterMap_cons]
    cases hf : f r with
    | none =>
      simp only [hf]
      exact ih acc
    | some txn =>
      simp only [hf]
      rw [ih]
      simp only [Prod.mk.injEq]
      refine ⟨by simp [List.append_assoc], ?_⟩
      funext k
      by_cases hk : k = col_name
      · simp [hk, appendTxn, List.append_assoc]
      · simp [hk, appendTxn]

/-- processRows in terms of colTxns. -/
theorem processRows_eq (team_abbr team_name : Str) (grid : Grid) (col_idx : Nat)
    (col_name : Str) (pidx : Option Nat) (acc : List Txn × (Str → List Txn)) :
    processRows team_abbr team_name grid col_idx col_name pidx acc =
      (acc.1 ++ colTxns team_abbr team_name grid col_idx col_name pidx,
       fun k => if k = col_name
         then acc.2 k ++ colTxns team_abbr team_name grid col_idx col_name pidx
         else acc.2 k) := by
  unfold processRows colTxns
  exact processRows_general _ col_name _ acc

/-- The column loop of processSheet in functional form, generalised over the
iterated header list. -/
theorem processCols_general (team_abbr team_name : Str) (grid : Grid)
    (hs : List (Nat × Str)) :
    ∀ (l : List (Nat × Str)) (acc : List Txn × (Str → List Txn)),
      l.foldl (fun acc p =>
        if p.2 ∈ SKIP_COLS ∨ p.2 = [] then acc
        else processRows team_abbr team_name grid p.1 p.2
          (pairedIdxFor hs p.1 p.2) acc) acc =
      (acc.1 ++ (l.filter fun p => decide (p.2 ∉ SKIP_COLS ∧ p.2 ≠ [])).flatMap
          (fun p => colTxns team_abbr team_name grid p.1 p.2
            (pairedIdxFor hs p.1 p.2)),
       fun k => acc.2 k ++
         (((l.filter fun p => decide (p.2 ∉ SKIP_COLS ∧ p.2 ≠ [])).filter
            fun p => decide (p.2 = k)).flatMap
          (fun p => colTxns team_abbr team_name grid p.1 p.2
            (pairedIdxFor hs p.1 p.2)))) := by
  intro l
  induction l with
  | nil =>
    intro acc
    simp only [List.foldl_nil, List.filter_nil, List.flatMap_nil, List.append_nil]
  | cons p l ih =>
    intro acc
    simp only [List.foldl_cons]
    by_cases hskip : p.2 ∈ SKIP_COLS ∨ p.2 = []
    · rw [if_pos hskip]
      rw [ih acc]
      have hfilter : (List.filter (fun p => decide (p.2 ∉ SKIP_COLS ∧ p.2 ≠ [])) (p :: l)) =
          List.filter (fun p => decide (p.2 ∉ SKIP_COLS ∧ p.2 ≠ [])) l := by
        rw [List.filter_cons_of_neg]
        simp only [decide_eq_true_eq, not_and_or, not_not, ne_eq]
        tauto
      rw [hfilter]
    · rw [if_neg hskip]
      rw [processRows_eq, ih]
      have hfilter : (List.filter (fun p => decide (p.2 ∉ SKIP_COLS ∧ p.2 ≠ [])) (p :: l)) =
          p :: List.filter (fun p => decide (p.2 ∉ SKIP_COLS ∧ p.2 ≠ [])) l := by
        rw [List.filter_cons_of_pos]
        simp only [decide_eq_true_eq, ne_eq]
        tauto
      rw [hfilter]
      simp only [List.flatMap_cons, Prod.mk.injEq]
      constructor
      · simp [List.append_assoc]
      · funext k
        by_cases hk : p.2 = k
        · rw [List.filter_cons_of_pos (by simp [hk])]
          simp only [List.flatMap_cons, if_pos hk.symm, List.append_assoc]
        · rw [List.filter_cons_of_neg (by simp [hk])]
          rw [if_neg (fun hkk => hk hkk.symm)]

/-- processSheet equals its functional characterisation: the flat per-sheet
list and the name-keyed buckets. -/
theorem processSheet_eq (team_abbr : Str) (grid : Grid) :
    processSheet team_abbr grid =
      (sheetTxns team_abbr grid, fun k => teamBucket team_abbr grid k) := by
  unfold processSheet sheetTxns teamBucket eligibleHeaders
  rw [processCols_general]
  simp only [List.nil_append]

/-- Every transaction built from a column carries that column's name as its
category, and its date and text come from parse_date on its raw string. -/
theorem mem_colTxns {t : Txn} {team_abbr team_name : Str} {grid : Grid} {col_idx : Nat}
    {col_name : Str} {pidx : Option Nat}
    (h : t ∈ colTxns team_abbr team_name grid col_idx col_name pidx) :
    t.category = col_name ∧ t.team_abbr = team_abbr ∧
    t.date = (parse_date t.raw).1 ∧ t.entry = (parse_date t.raw).2 := by
  unfold colTxns at h
  rw [List.mem_filterMap] at h
  obtain ⟨r, _, hr⟩ := h
  unfold rowTxn at hr
  split at hr
  · exact absurd hr (by simp)
  · rename_i pcell heq2
    by_cases hre : pyStrip pcell = []
    · simp [hre] at hr
    · simp only [if_neg hre] at hr
      injection hr with hr
      subst hr
      exact ⟨rfl, rfl, rfl, rfl⟩

/-- A column's transactions filtered by a category name: all of them when
the name is the column's, none otherwise. -/
theorem colTxns_filter_category (a tn : Str) (g : Grid) (i : Nat) (c : Str)
    (pidx : Option Nat) (k : Str) :
    (colTxns a tn g i c pidx).filter (fun t => decide (t.category = k)) =
      if c = k then colTxns a tn g i c pidx else [] := by
  by_cases hc : c = k
  · rw [if_pos hc, List.filter_eq_self]
    intro t ht
    simp [(mem_colTxns ht).1, hc]
  · rw [if_neg hc, List.filter_eq_nil_iff]
    intro t ht
    simp [(mem_colTxns ht).1, hc]

/-- A flatMap over a conditional equals the flatMap over the filter. -/
theorem flatMap_ite {α β : Type} (l : List α) (q : α → Prop) [DecidablePred q]
    (f : α → List β) :
    l.flatMap (fun a => if q a then f a else []) =
      (l.filter fun a => decide (q a)).flatMap f := by
  induction l with
  | nil => rfl
  | cons a l ih =>
    by_cases hq : q a
    · rw [List.flatMap_cons, List.filter_cons_of_pos (by simp [hq]), List.flatMap_cons,
          if_pos hq, ih]
    · rw [List.flatMap_cons, List.filter_cons_of_neg (by simp [hq]), if_neg hq, ih,
          List.nil_append]

/-- The name-keyed bucket is the flat per-sheet list restricted to that
category. -/
theorem teamBucket_eq_filter (a : Str) (g : Grid) (k : Str) :
    teamBucket a g k = (sheetTxns a g).filter (fun t => decide (t.category = k)) := by
  unfold teamBucket sheetTxns
  rw [List.filter_flatMap]
  simp only [Function.comp]
  rw [← flatMap_ite]
  congr 1
  funext p
  rw [colTxns_filter_category]

/-- splitCS never returns the empty list. -/
theorem splitCS_ne_nil (l : Str) : splitCS l ≠ [] := by
  intro h
  rw [splitCS.eq_def] at h
  split at h
  · exact absurd h (by simp)
  · split at h
    · exact absurd h (by simp)
    · exact absurd h (by simp)
  · exact absurd h (by simp)

/-- Dropping the head character preserves delimiter absence. -/
theorem hasCS_cons_false {c : Char} {l : Str} (h : hasCS (c :: l) = false) :
    hasCS l = false := by
  rw [hasCS.eq_def] at h
  split at h
  · exact absurd h (by simp)
  · rename_i heq
    injection heq with _ h2
    rw [h2]
    exact h
  · rename_i heq
    exact absurd heq (by simp)

/-- A string containing the colon-space delimiter tests positive. -/
theorem hasCS_append_cs : ∀ (head tail : Str), hasCS (head ++ ':' :: ' ' :: tail) = true := by
  intro head
  induction head with
  | nil => intro tail; rfl
  | cons c head ih =>
    intro tail
    rw [hasCS.eq_def]
    split
    · rfl
    · rename_i heq
      injection heq with _ h2
      have h2b : head ++ ':' :: ' ' :: tail = _ := h2
      rw [← h2b]
      exact ih tail
    · rename_i heq
      exact absurd heq (by simp)

/-- Splitting on the first delimiter: when the head holds no delimiter, the
split of head-delimiter-tail starts with the head. -/
theorem splitCS_append : ∀ (head tail : Str), hasCS head = false →
    splitCS (head ++ ':' :: ' ' :: tail) = head :: splitCS tail := by
  intro head
  induction head with
  | nil => intro tail _; rfl
  | cons c head ih =>
    intro tail hh
    have hh2 : hasCS head = false := hasCS_cons_false hh
    rw [splitCS.eq_def]
    split
    · rename_i rest heq
      cases head with
      | nil =>
        simp only [List.nil_append, List.cons_append] at heq
        injection heq with _ h2
        injection h2 with h3 _
        exact absurd h3 (by decide)
      | cons c2 head2 =>
        simp only [List.cons_append] at heq
        injection heq with h1 h2
        injection h2 with h3 _
        subst h1
        subst h3
        simp [hasCS] at hh
    · rename_i heq
      injection heq with h1 h2
      have h2b : head ++ ':' :: ' ' :: tail = _ := h2
      rw [← h2b, ih tail hh2, ← h1]
    · rename_i heq
      exact absurd heq (by simp)

/-- Joining the split reconstructs the string. -/
theorem interCS_splitCS : ∀ (n : Nat) (l : Str), l.length ≤ n →
    interCS (splitCS l) = l := by
  intro n
  induction n with
  | zero =>
    intro l hl
    have hz : l = [] := List.eq_nil_of_length_eq_zero (Nat.le_zero.mp hl)
    subst hz
    rfl
  | succ n ih =>
    intro l hl
    rw [splitCS.eq_def]
    split
    · rename_i rest
      obtain ⟨h0, t0, hsplit⟩ : ∃ h0 t0, splitCS rest = h0 :: t0 := by
        cases hsp : splitCS rest with
        | nil => exact absurd hsp (splitCS_ne_nil rest)
        | cons h0 t0 => exact ⟨h0, t0, rfl⟩
      rw [hsplit]
      show ':' :: ' ' :: interCS (h0 :: t0) = ':' :: ' ' :: rest
      rw [← hsplit, ih rest (by simp only [List.length_cons] at hl; omega)]
    · rename_i c rest heq
      obtain ⟨h0, t0, hsplit⟩ : ∃ h0 t0, splitCS rest = h0 :: t0 := by
        cases hsp : splitCS rest with
        | nil => exact absurd hsp (splitCS_ne_nil rest)
        | cons h0 t0 => exact ⟨h0, t0, rfl⟩
      rw [hsplit]
      have hrec : interCS (h0 :: t0) = rest := by
        rw [← hsplit]
        exact ih rest (by simp only [List.length_cons] at hl; omega)
      cases t0 with
      | nil =>
        show c :: h0 = c :: rest
        rw [show h0 = interCS [h0] from rfl, hrec]
      | cons x xs =>
        show (c :: h0) ++ ':' :: ' ' :: interCS (x :: xs) = c :: rest
        have : h0 ++ ':' :: ' ' :: interCS (x :: xs) = interCS (h0 :: x :: xs) := rfl
        simp only [List.cons_append, this, hrec]
    · rfl

/-- parse_date either fails with the original entry or succeeds. -/
theorem parse_date_cases (e : Str) :
    parse_date e = (none, e) ∨ ∃ d t2, parse_date e = (some d, t2) := by
  simp only [parse_date]
  repeat' split
  all_goals first
    | exact Or.inr ⟨_, _, rfl⟩
    | exact Or.inl rfl

/-- The date string returned by a successful parse satisfies exactly the
checks of the parser: it contains a slash, has at most 5 characters, and
its first two slash-fields parse as integers with month in [1,12] and day
in [1,31]. -/
theorem parse_date_some_shape (e d t2 : Str) (h : parse_date e = (some d, t2)) :
    ('/' ∈ d) ∧ d.length ≤ 5 ∧
    ∃ m dd : Int, ((splitSlash d).get? 0).bind pyInt = some m ∧
      ((splitSlash d).get? 1).bind pyInt = some dd ∧
      1 ≤ m ∧ m ≤ 12 ∧ 1 ≤ dd ∧ dd ≤ 31 := by
  simp only [parse_date] at h
  split at h
  · split at h
    · split at h
      · split at h
        · rename_i hguard x1 x2 m dd hm hdd hrange
          injection h with h1 h2
          injection h1 with h1
          subst h1
          simp only [Bool.and_eq_true, decide_eq_true_eq] at hguard hrange
          exact ⟨hguard.1, hguard.2, m, dd, hm, hdd,
            hrange.1.1.1, hrange.1.1.2, hrange.1.2, hrange.2⟩
        · exact absurd h (by simp)
      · exact absurd h (by simp)
    · exact absurd h (by simp)
  · exact absurd h (by simp)

/-- The workbook fold of parse_excel in functional form. -/
theorem parse_excel_fold : ∀ (sheets : List (Str × Grid))
    (acc : List Txn × List (Str × (Str → List Txn))),
    (sheets.foldl (fun acc sg =>
      if sg.1 = str "Indy Ball" ∨ teamLookup sg.1 = none then acc
      else
        let pr := processSheet sg.1 sg.2
        (acc.1 ++ pr.1, acc.2 ++ [(sg.1, pr.2)])) acc) =
    (acc.1 ++ (sheets.filter fun sg =>
        decide (sg.1 ≠ str "Indy Ball" ∧ teamLookup sg.1 ≠ none)).flatMap
        (fun sg => (processSheet sg.1 sg.2).1),
     acc.2 ++ (sheets.filter fun sg =>
        decide (sg.1 ≠ str "Indy Ball" ∧ teamLookup sg.1 ≠ none)).map
        (fun sg => (sg.1, (processSheet sg.1 sg.2).2))) := by
  intro sheets
  induction sheets with
  | nil =>
    intro acc
    simp only [List.foldl_nil, List.filter_nil, List.flatMap_nil, List.map_nil,
      List.append_nil]
  | cons sg sheets ih =>
    intro acc
    simp only [List.foldl_cons]
    by_cases hskip : sg.1 = str "Indy Ball" ∨ teamLookup sg.1 = none
    · rw [if_pos hskip, ih,
        List.filter_cons_of_neg (by simp only [decide_eq_true_eq, ne_eq]; tauto)]
    · rw [if_neg hskip, ih,
        List.filter_cons_of_pos (by simp only [decide_eq_true_eq, ne_eq]; tauto)]
      simp only [List.flatMap_cons, List.map_cons, Prod.mk.injEq]
      exact ⟨by simp [List.append_assoc], by simp⟩

/-- The per-team association list built by parse_excel: one entry per sheet
whose name is a known team code other than 'Indy Ball', in sheet order. -/
theorem parse_excel_snd (sheets : List (Str × Grid)) :
    (parse_excel sheets).2 =
      (sheets.filter fun sg =>
        decide (sg.1 ≠ str "Indy Ball" ∧ teamLookup sg.1 ≠ none)).map
        (fun sg => (sg.1, (processSheet sg.1 sg.2).2)) := by
  unfold parse_excel
  rw [parse_excel_fold]
  simp only [List.nil_append]

/-- Flattening the per-column association list of a section. -/
theorem accordion_all_flatMap (td : Str → List Txn) (cols : List Str) :
    accordion_all (transactions_by_col td cols) = cols.flatMap td := by
  unfold accordion_all transactions_by_col
  rw [List.flatMap_map]

/-- A transaction is rendered inside a section exactly when it lies in one
of the section's buckets (sorting and subheader grouping only reorder). -/
theorem mem_accordion_items (tbc : List (Str × List Txn)) (sub : Bool) (t : Txn) :
    t ∈ accordion_items tbc sub ↔ t ∈ accordion_all tbc := by
  unfold accordion_items accordion_all
  split
  · simp only [List.mem_flatMap, sortByDate, List.mem_mergeSort]
  · simp only [sortByDate, List.mem_mergeSort, List.mem_flatMap]

/-- Counting a membership-disjoint disjunction of category tests. -/
theorem length_filter_or (xs : List Txn) (c : Str) (cols : List Str) (hc : c ∉ cols) :
    (xs.filter fun t => decide (t.category ∈ c :: cols)).length =
      (xs.filter fun t => decide (t.category = c)).length +
      (xs.filter fun t => decide (t.category ∈ cols)).length := by
  induction xs with
  | nil => rfl
  | cons t xs ih =>
    by_cases h1 : t.category = c
    · rw [List.filter_cons_of_pos (by simp [h1]),
          List.filter_cons_of_pos (by simp [h1]),
          List.filter_cons_of_neg (by simp [h1]; exact fun hm => hc (h1 ▸ hm))]
      simp only [List.length_cons, ih]
      omega
    · by_cases h2 : t.category ∈ cols
      · rw [List.filter_cons_of_pos (by simp [List.mem_cons, h2]),
            List.filter_cons_of_neg (by simp [h1]),
            List.filter_cons_of_pos (by simp [h2])]
        simp only [List.length_cons, ih]
        omega
      · rw [List.filter_cons_of_neg (by simp [List.mem_cons, h1, h2]),
            List.filter_cons_of_neg (by simp [h1]),
            List.filter_cons_of_neg (by simp [h2])]
        exact ih

/-- Summing per-category bucket sizes over distinct columns counts the
transactions whose category lies among the columns. -/
theorem length_flatMap_filter (xs : List Txn) :
    ∀ cols : List Str, cols.Nodup →
      (cols.flatMap fun c => xs.filter fun t => decide (t.category = c)).length =
        (xs.filter fun t => decide (t.category ∈ cols)).length := by
  intro cols
  induction cols with
  | nil => intro _; simp
  | cons c cols ih =>
    intro hnd
    rw [List.flatMap_cons, List.length_append, ih (List.nodup_cons.mp hnd).2,
        length_filter_or xs c cols (List.nodup_cons.mp hnd).1]

/-- Unfolding of renderSecs over the head section when it has transactions. -/
theorem renderSecs_cons_pos (s : AccordionSection) (L : List AccordionSection)
    (td : Str → List Txn)
    (h : accordion_all (transactions_by_col td s.columns) ≠ []) :
    renderSecs (s :: L) td =
      ⟨s.title, s.columns, accordion_count (transactions_by_col td s.columns),
       accordion_items (transactions_by_col td s.columns) s.subheaders⟩ ::
        renderSecs L td := by
  unfold renderSecs
  rw [List.filterMap_cons]
  simp only [if_neg h]

/-- Unfolding of renderSecs over an empty head section. -/
theorem renderSecs_cons_neg (s : AccordionSection) (L : List AccordionSection)
    (td : Str → List Txn)
    (h : accordion_all (transactions_by_col td s.columns) = []) :
    renderSecs (s :: L) td = renderSecs L td := by
  unfold renderSecs
  rw [List.filterMap_cons]
  simp only [if_pos h]

/-- A transaction whose category lies in no section of the list is rendered
in none of its sections. -/
theorem renderSecs_zero (td : Str → List Txn) (t : Txn)
    (hcat : ∀ k, t ∈ td k → k = t.category) :
    ∀ L : List AccordionSection, t.category ∉ L.flatMap (fun s => s.columns) →
      (renderSecs L td).countP (fun r => decide (t ∈ r.items)) = 0 := by
  intro L
  induction L with
  | nil => intro _; rfl
  | cons s L ih =>
    intro hnc
    have hns : t.category ∉ s.columns := fun hmem =>
      hnc (List.mem_flatMap.mpr ⟨s, List.mem_cons_self s L, hmem⟩)
    have hnL : t.category ∉ L.flatMap (fun s2 => s2.columns) := fun hmem =>
      hnc (by rw [List.flatMap_cons]; exact List.mem_append_right _ hmem)
    have hnotmem : ¬ t ∈ accordion_items (transactions_by_col td s.columns) s.subheaders := by
      rw [mem_accordion_items, accordion_all_flatMap]
      intro hmem
      obtain ⟨c, hcmem, htc⟩ := List.mem_flatMap.mp hmem
      exact hns (hcat c htc ▸ hcmem)
    by_cases hemp : accordion_all (transactions_by_col td s.columns) = []
    · rw [renderSecs_cons_neg s L td hemp]
      exact ih hnL
    · rw [renderSecs_cons_pos s L td hemp, List.countP_cons_of_neg]
      · exact ih hnL
      · simpa using hnotmem

/-- A transaction lying in a bucket of exactly the section list's coverage
is rendered in exactly one section: sections have pairwise disjoint column
sets, the covering section necessarily renders, and no other rendered
section contains the transaction. -/
theorem renderSecs_one (td : Str → List Txn) (t : Txn)
    (ht : t ∈ td t.category)
    (hcat : ∀ k, t ∈ td k → k = t.category) :
    ∀ L : List AccordionSection,
      L.Pairwise (fun s1 s2 => ∀ c ∈ s1.columns, c ∉ s2.columns) →
      t.category ∈ L.flatMap (fun s => s.columns) →
      (renderSecs L td).countP (fun r => decide (t ∈ r.items)) = 1 := by
  intro L
  induction L with
  | nil =>
    intro _ h
    simp at h
  | cons s L ih =>
    intro hpw hcov
    by_cases hin : t.category ∈ s.columns
    · have hmem_all : t ∈ accordion_all (transactions_by_col td s.columns) := by
        rw [accordion_all_flatMap]
        exact List.mem_flatMap.mpr ⟨t.category, hin, ht⟩
      have hnotnil : accordion_all (transactions_by_col td s.columns) ≠ [] :=
        fun hh => by rw [hh] at hmem_all; exact absurd hmem_all (by simp)
      rw [renderSecs_cons_pos s L td hnotnil, List.countP_cons_of_pos]
      · have hrest : t.category ∉ L.flatMap (fun s2 => s2.columns) := by
          intro hmem
          obtain ⟨s2, hs2, hc2⟩ := List.mem_flatMap.mp hmem
          exact (List.pairwise_cons.mp hpw).1 s2 hs2 t.category hin hc2
        rw [renderSecs_zero td t hcat L hrest]
      · simpa [mem_accordion_items] using hmem_all
    · have hcovL : t.category ∈ L.flatMap (fun s2 => s2.columns) := by
        rcases List.mem_flatMap.mp hcov with ⟨s2, hs2, hc2⟩
        rcases List.mem_cons.mp hs2 with rfl | hs2a
        · exact absurd hc2 hin
        · exact List.mem_flatMap.mpr ⟨s2, hs2a, hc2⟩
      have hnotmem : ¬ t ∈ accordion_items (transactions_by_col td s.columns) s.subheaders := by
        rw [mem_accordion_items, accordion_all_flatMap]
        intro hmem
        obtain ⟨c, hcmem, htc⟩ := List.mem_flatMap.mp hmem
        exact hin (hcat c htc ▸ hcmem)
      by_cases hemp : accordion_all (transactions_by_col td s.columns) = []
      · rw [renderSecs_cons_neg s L td hemp]
        exact ih (List.pairwise_cons.mp hpw).2 hcovL
      · rw [renderSecs_cons_pos s L td hemp, List.countP_cons_of_neg]
        · exact ih (List.pairwise_cons.mp hpw).2 hcovL
        · simpa using hnotmem

/-- Overwrite one cell of a grid (the row is fetched, updated and stored;
writes outside the stored rectangle leave the grid unchanged). -/
def setCell (grid : Grid) (r c : Nat) (v : Cell) : Grid :=
  grid.set r (((grid.get? r).getD []).set c v)

/-- Reading any other position is unaffected by a cell overwrite. -/
theorem cellVal_setCell (grid : Grid) (r c : Nat) (v : Cell) (r2 c2 : Nat)
    (h : r2 ≠ r ∨ c2 ≠ c) :
    cellVal (setCell grid r c v) r2 c2 = cellVal grid r2 c2 := by
  unfold cellVal setCell
  simp only [List.get?_eq_getElem?]
  by_cases hr : r2 = r
  · subst hr
    rcases h with h | h
    · exact absurd rfl h
    · by_cases hlen : r2 < grid.length
      · rw [List.getElem?_set_self hlen]
        simp only [Option.getD_some]
        rw [List.getElem?_set_ne (fun hcc => h hcc.symm)]
      · rw [List.set_eq_of_length_le (Nat.le_of_not_lt hlen)]
  · rw [List.getElem?_set_ne (fun hh => hr hh.symm)]

/-- The header row is untouched by an overwrite in a data row. -/
theorem buildHeaders_setCell (grid : Grid) (r c : Nat) (v : Cell) (hr : r ≠ 1) :
    buildHeaders (setCell grid r c v) = buildHeaders grid := by
  unfold buildHeaders setCell
  simp only [List.get?_eq_getElem?]
  rw [List.getElem?_set_ne hr]

/-- Membership in the header map is reading the header row. -/
theorem mem_buildHeaders {g : Grid} {i : Nat} {n : Str} :
    (i, n) ∈ buildHeaders g ↔
      ∃ v0, ((g.get? 1).getD [])[i]? = some (some v0) ∧ n = pyStrip v0 := by
  unfold buildHeaders
  rw [List.mem_filterMap]
  constructor
  · rintro ⟨⟨i2, c2⟩, hmem, heq⟩
    cases c2 with
    | none => simp at heq
    | some v0 =>
      simp only [Option.some.injEq, Prod.mk.injEq] at heq
      obtain ⟨rfl, rfl⟩ := heq
      exact ⟨v0, List.mem_enum_iff_getElem?.mp hmem, rfl⟩
  · rintro ⟨v0, hget, rfl⟩
    exact ⟨(i, some v0), List.mem_enum_iff_getElem?.mpr (by simpa using hget), rfl⟩

/-- At most one header name per column index. -/
theorem buildHeaders_unique {g : Grid} {i : Nat} {n1 n2 : Str}
    (h1 : (i, n1) ∈ buildHeaders g) (h2 : (i, n2) ∈ buildHeaders g) : n1 = n2 := by
  obtain ⟨v1, hv1, rfl⟩ := mem_buildHeaders.mp h1
  obtain ⟨v2, hv2, rfl⟩ := mem_buildHeaders.mp h2
  rw [hv1] at hv2
  injection hv2 with hv2
  injection hv2 with hv2
  rw [hv2]

/-- A successful header lookup names a member of the header map. -/
theorem headerAt_mem {hs : List (Nat × Str)} {j : Nat} {nm : Str}
    (h : headerAt hs j = some nm) : (j, nm) ∈ hs := by
  unfold headerAt at h
  rw [Option.map_eq_some'] at h
  obtain ⟨p, hfind, hp2⟩ := h
  have hpj : p.1 = j := by
    have := List.find?_some hfind
    simpa using this
  have hpm := List.mem_of_find?_eq_some hfind
  have : p = (j, nm) := by
    cases p
    simp only [Prod.mk.injEq]
    exact ⟨hpj, hp2⟩
  rw [← this]
  exact hpm

/-- The paired index, when present, is the immediately following column. -/
theorem pairedIdxFor_some {hs : List (Nat × Str)} {i : Nat} {n : Str} {p : Nat}
    (h : pairedIdxFor hs i n = some p) : p = i + 1 := by
  unfold pairedIdxFor at h
  split at h
  · injection h with h
    exact h.symm
  · exact absurd h (by simp)

/-- A row's transaction depends only on the primary cell and, when the
primary cell is non-blank, the paired cell. -/
theorem rowTxn_congr (a tn : Str) (g1 g2 : Grid) (i : Nat) (name : Str)
    (pidx : Option Nat) (row : Nat)
    (h1 : cellVal g1 row i = cellVal g2 row i)
    (h2 : ∀ s, cellVal g1 row i = some s → pyStrip s ≠ [] →
      ∀ p, pidx = some p → cellVal g1 row p = cellVal g2 row p) :
    rowTxn a tn g1 i name pidx row = rowTxn a tn g2 i name pidx row := by
  unfold rowTxn
  rw [h1]
  cases hv : cellVal g2 row i with
  | none => rfl
  | some s =>
    by_cases hstrip : pyStrip s = []
    · simp only [if_pos hstrip]
    · simp only [if_neg hstrip]
      cases pidx with
      | none => rfl
      | some p =>
        have h3 := h2 s (h1.trans hv) hstrip p rfl
        simp only [h3]

/-- Overwriting a pairing-column cell in a data row whose primary cell is
blank leaves the whole sheet result unchanged: pairing columns are never
iterated, and their cells are only read when the primary cell of the same
row is non-blank. -/
theorem processSheet_setCell (abbr : Str) (grid : Grid) (r j : Nat) (v : Cell)
    (hr : 2 ≤ r) (hj : 1 ≤ j)
    (hhdr : headerAt (buildHeaders grid) j = some (str "New Team"))
    (hblank : ∀ s, cellVal grid r (j - 1) = some s → pyStrip s = []) :
    processSheet abbr (setCell grid r j v) = processSheet abbr grid := by
  have hheaders : buildHeaders (setCell grid r j v) = buildHeaders grid :=
    buildHeaders_setCell grid r j v (by omega)
  have hNT : (j, str "New Team") ∈ buildHeaders grid := headerAt_mem hhdr
  have hlength : (setCell grid r j v).length = grid.length := by
    unfold setCell
    exact List.length_set grid r _
  have hinej : ∀ p : Nat × Str, p ∈ eligibleHeaders grid → p.1 ≠ j := by
    intro p hmem hij
    have hm2 : (p.1, p.2) ∈ buildHeaders grid := by
      have := (List.mem_filter.mp hmem).1
      simpa using this
    rw [hij] at hm2
    have hname : p.2 = str "New Team" := buildHeaders_unique hm2 hNT
    have hel := (List.mem_filter.mp hmem).2
    rw [hname] at hel
    simp [SKIP_COLS] at hel
  have helig : eligibleHeaders (setCell grid r j v) = eligibleHeaders grid := by
    unfold eligibleHeaders
    rw [hheaders]
  have hcol : ∀ tn : Str, ∀ p : Nat × Str, p ∈ eligibleHeaders grid →
      colTxns abbr tn (setCell grid r j v) p.1 p.2
          (pairedIdxFor (buildHeaders grid) p.1 p.2) =
        colTxns abbr tn grid p.1 p.2
          (pairedIdxFor (buildHeaders grid) p.1 p.2) := by
    intro tn p hmem
    unfold colTxns
    rw [hlength]
    apply List.filterMap_congr
    intro row _
    apply rowTxn_congr
    · exact cellVal_setCell grid r j v row p.1 (Or.inr (hinej p hmem))
    · intro s hs hstrip q hq
      have hq1 : q = p.1 + 1 := pairedIdxFor_some hq
      subst hq1
      have hs2 : cellVal grid row p.1 = some s := by
        rw [← cellVal_setCell grid r j v row p.1 (Or.inr (hinej p hmem))]
        exact hs
      by_cases hpj : p.1 + 1 = j
      · by_cases hrow2 : row = r
        · subst hrow2
          have hij : p.1 = j - 1 := by omega
          rw [hij] at hs2
          exact absurd (hblank s hs2) hstrip
        · exact cellVal_setCell grid r j v row (p.1 + 1) (Or.inl hrow2)
      · exact cellVal_setCell grid r j v row (p.1 + 1) (Or.inr hpj)
  rw [processSheet_eq, processSheet_eq]
  simp only [Prod.mk.injEq]
  constructor
  · simp only [sheetTxns]
    rw [helig, hheaders]
    exact List.flatMap_congr fun p hp => hcol _ p hp
  · funext k
    simp only [teamBucket]
    rw [helig, hheaders]
    exact List.flatMap_congr fun p hp => hcol _ p (List.mem_filter.mp hp).1

/-- The date-string pattern asserted by claim C1: one or two digits, a
slash, one or two digits and nothing else, with the month field in [1,12]
and the day field in [1,31]. -/
def claimDatePattern (d : Str) : Bool :=
  match splitSlash d with
  | [a, b] =>
    a.all Char.isDigit && b.all Char.isDigit &&
    decide (1 ≤ a.length) && decide (a.length ≤ 2) &&
    decide (1 ≤ b.length) && decide (b.length ≤ 2) &&
    decide (1 ≤ digitsVal a) && decide (digitsVal a ≤ 12) &&
    decide (1 ≤ digitsVal b) && decide (digitsVal b ≤ 31)
  | _ => false

/-- The pandas cell at (r, c) is missing or blank after trimming. -/
def cellBlank (g : Grid) (r c : Nat) : Bool :=
  match cellVal g r c with
  | none => true
  | some s => decide (pyStrip s = [])

/-- The result of the strikethrough-stripping stage alone (claim C6). -/
def strikeStripped (e : Str) : Str :=
  if (str "~~").isPrefixOf e && (str "~~").isSuffixOf e then slice2m2 e else e

/-- One-column demonstration sheet: an MLB Signings entry with a date. -/
def c1grid : Grid := [[], [some (str "MLB Signings")], [some (str "9/15: Signed RHSP")]]

/-- The transaction the mapper produces from c1grid. -/
def c1txn : Txn :=
  ⟨str "ARI", str "Arizona Diamondbacks", str "MLB Signings", some (str "9/15"),
   str "Signed RHSP", str "9/15: Signed RHSP", false, none⟩

/-- One-column demonstration sheet: a Retired entry with a date. -/
def c2grid : Grid := [[], [some (str "Retired")], [some (str "9/1: X")]]

/-- The transaction the mapper produces from c2grid. -/
def c2txn : Txn :=
  ⟨str "ARI", str "Arizona Diamondbacks", str "Retired", some (str "9/1"),
   str "X", str "9/1: X", false, none⟩

/-- A sheet whose header is covered by no accordion section. -/
def c2gridMisc : Grid := [[], [some (str "Misc")], [some (str "9/1: X")]]

/-- A dated transaction record used to instantiate the sort-key claim. -/
def c5txn : Txn :=
  ⟨str "ARI", str "Arizona Diamondbacks", str "Retired", some (str "9/1"),
   str "X", str "9/1: X", false, none⟩

/-- A one-sheet workbook for the build-outputs claim. -/
def c8grid : Grid := [[], [some (str "Retired")], [some (str "9/1: X")]]

/-- A sheet with two columns sharing the header name Released. -/
def c9grid : Grid :=
  [[], [some (str "Released"), some (str "Released")],
   [some (str "A"), some (str "B")]]

/-- The transaction from the first Released column of c9grid. -/
def c9txnA : Txn :=
  ⟨str "ARI", str "Arizona Diamondbacks", str "Released", none,
   str "A", str "A", false, none⟩

/-- The transaction from the second Released column of c9grid. -/
def c9txnB : Txn :=
  ⟨str "ARI", str "Arizona Diamondbacks", str "Released", none,
   str "B", str "B", false, none⟩

/-- A sheet with a Released column paired to a New Team column where the
data row has a blank primary cell and a non-empty paired cell. -/
def c10grid : Grid :=
  [[], [some (str "Released"), some (str "New Team")],
   [none, some (str "TBR (MiLB)")]]

/-! ## Claim theorems -/

/-- C1 (counterexample): the entry parser can return a date string outside
the one-or-two-digits slash one-or-two-digits shape: "1/2/3: x" parses with
date "1/2/3" (length 5, slash present, first two fields 1 and 2 in range),
which does not match the claimed pattern. -/
theorem c1_counterexample :
    (parse_date (str "1/2/3: x")).1 = some (str "1/2/3") ∧
    claimDatePattern (str "1/2/3") = false := by decide

/-- C1 (amended): every transaction the sheet mapper constructs with a
present date carries a date string that contains a slash, has at most 5
characters, and whose first two slash-separated fields parse as Python
integers with month in [1,12] and day in [1,31] — but not necessarily the
pure digits-slash-digits shape. -/
theorem c1_amended (abbr : Str) (grid : Grid) (t : Txn) (d : Str)
    (ht : t ∈ (processSheet abbr grid).1) (hd : t.date = some d) :
    ('/' ∈ d) ∧ d.length ≤ 5 ∧
    ∃ m dd : Int, ((splitSlash d).get? 0).bind pyInt = some m ∧
      ((splitSlash d).get? 1).bind pyInt = some dd ∧
      1 ≤ m ∧ m ≤ 12 ∧ 1 ≤ dd ∧ dd ≤ 31 := by
  rw [processSheet_eq] at ht
  have ht2 : t ∈ sheetTxns abbr grid := ht
  simp only [sheetTxns] at ht2
  obtain ⟨p, hp, htp⟩ := List.mem_flatMap.mp ht2
  have hmc := mem_colTxns htp
  rcases hpe : parse_date t.raw with ⟨o, txt⟩
  have ho : o = some d := by
    have h1 := hmc.2.2.1
    rw [hpe] at h1
    rw [hd] at h1
    exact h1.symm
  rw [ho] at hpe
  exact parse_date_some_shape t.raw d txt hpe

/-- C1 (witness): the amended shape at the concrete sheet c1grid. -/
theorem c1_witness :
    ('/' ∈ str "9/15") ∧ (str "9/15").length ≤ 5 ∧
    ∃ m dd : Int, ((splitSlash (str "9/15")).get? 0).bind pyInt = some m ∧
      ((splitSlash (str "9/15")).get? 1).bind pyInt = some dd ∧
      1 ≤ m ∧ m ≤ 12 ∧ 1 ≤ dd ∧ dd ≤ 31 :=
  c1_amended (str "ARI") c1grid c1txn (str "9/15") (by decide) (by decide)

/-- C4 (confirmed): when no colon-space delimiter is found in the working
string, or whenever no date is extracted for any reason, parse_date returns
no date together with the original input byte-for-byte (no stripped marker
is re-applied), and it never raises (it is a total function). -/
theorem c4_failure_returns_original (e : Str) :
    (hasCS (stripMarkers e).2.2 = false → parse_date e = (none, e)) ∧
    ((parse_date e).1 = none → (parse_date e).2 = e) := by
  constructor
  · intro h
    simp only [parse_date]
    rw [if_neg (by simp [h])]
  · intro h
    rcases parse_date_cases e with hc | ⟨d, t2, hc⟩
    · rw [hc]
    · rw [hc] at h
      exact absurd h (by simp)

/-- C4 (witness): a delimiter-free input returns unchanged. -/
theorem c4_witness :
    parse_date (str "Signed a pitcher") = (none, str "Signed a pitcher") :=
  (c4_failure_returns_original (str "Signed a pitcher")).1 (by decide)

/-- C7 (confirmed): format_entry escapes the whole string first and only
then rewrites the strikethrough and italic runs; consequently the output is
injection-safe: it is a sequence of the four formatter-inserted elements
(s, /s, em, /em), the five escape entities, and characters other than the
ampersand and angle brackets — so every markup character of the input
survives only as an escaped entity and no tag originates from the input. -/
theorem c7_injection_safe (s : Str) :
    format_entry s = (if s = [] then [] else subItalicGo none (subStrike (html_escape s))) ∧
    SafeP (format_entry s) := by
  refine ⟨rfl, ?_⟩
  unfold format_entry
  split
  · exact SafeP.nil
  · exact subItalicGo_safe _ _ none le_rfl
      (subStrike_safe _ _ le_rfl (html_escape_escP s))

/-- C8 (counterexample): building a workbook holding one known team sheet
emits only index.html and that team's page — no page for the other 29 known
teams, no stylesheet file and no search-script file. -/
theorem c8_counterexample :
    build_site_outputs [(str "ARI", c8grid)] = [str "index.html", str "ari.html"] := by
  decide

/-- C8 (amended): a completed build emits index.html plus one HTML page,
named by the lowercased team code, for each workbook sheet whose name is a
known team code other than 'Indy Ball' — and nothing else: the stylesheet
and the search script are inlined in the pages, not written as files. -/
theorem c8_amended (sheets : List (Str × Grid)) :
    build_site_outputs sheets =
      str "index.html" ::
        (sheets.filter fun sg =>
          decide (sg.1 ≠ str "Indy Ball" ∧ teamLookup sg.1 ≠ none)).map
          (fun sg => pyLower sg.1 ++ str ".html") := by
  unfold build_site_outputs
  rw [parse_excel_snd, List.map_map]
  rfl

/-- C10 (confirmed): a non-empty value in a New Team pairing column on a row
whose adjacent primary cell is missing or blank contributes nothing: the
sheet result is unchanged whatever that cell holds, because pairing columns
are never iterated and their cells are read only when the primary cell of
the same row is non-blank. -/
theorem c10_paired_blank (abbr : Str) (grid : Grid) (r j : Nat) (v : Cell)
    (hr : 2 ≤ r) (hj : 1 ≤ j)
    (hhdr : headerAt (buildHeaders grid) j = some (str "New Team"))
    (hblank : cellBlank grid r (j - 1) = true) :
    processSheet abbr (setCell grid r j v) = processSheet abbr grid := by
  apply processSheet_setCell abbr grid r j v hr hj hhdr
  intro s hs
  unfold cellBlank at hblank
  rw [hs] at hblank
  simpa using hblank

/-- C10 (witness): overwriting the New Team cell of c10grid's blank-primary
row changes nothing. -/
theorem c10_witness :
    processSheet (str "ARI") (setCell c10grid 2 1 (some (str "CHC (MLB)"))) =
      processSheet (str "ARI") c10grid :=
  c10_paired_blank (str "ARI") c10grid 2 1 (some (str "CHC (MLB)"))
    (by decide) (by decide) (by decide) (by decide)

/-- C2 (counterexample): a mapper transaction whose category is covered by
no accordion section appears in zero rendered sections of its team page,
not exactly one. -/
theorem c2_counterexample :
    (processSheet (str "ARI") c2gridMisc).1 ≠ [] ∧
    team_page_sections (processSheet (str "ARI") c2gridMisc).2 = [] := by decide

/-- C2 (amended): every mapper transaction whose category is mapped by some
accordion section appears in exactly one rendered section of that team's
page, and every rendered section's displayed count equals the number of the
team's transactions whose category lies among the section's mapped
categories (transactions under unmapped headers are rendered nowhere). -/
theorem c2_amended (abbr : Str) (grid : Grid) :
    (∀ t ∈ (processSheet abbr grid).1,
        t.category ∈ ACCORDION_SECTIONS.flatMap (fun s => s.columns) →
        (team_page_sections (processSheet abbr grid).2).countP
          (fun r => decide (t ∈ r.items)) = 1) ∧
    (∀ r ∈ team_page_sections (processSheet abbr grid).2,
        r.count = ((processSheet abbr grid).1.filter
          (fun t2 => decide (t2.category ∈ r.columns))).length) := by
  rw [processSheet_eq]
  constructor
  · intro t ht hcov
    have ht2 : t ∈ sheetTxns abbr grid := ht
    apply renderSecs_one
    · show t ∈ teamBucket abbr grid t.category
      rw [teamBucket_eq_filter, List.mem_filter]
      exact ⟨ht2, by simp⟩
    · intro k htk
      have htk2 : t ∈ teamBucket abbr grid k := htk
      rw [teamBucket_eq_filter, List.mem_filter] at htk2
      have hk := htk2.2
      simp only [decide_eq_true_eq] at hk
      exact hk.symm
    · exact (by decide :
        ACCORDION_SECTIONS.Pairwise fun s1 s2 => ∀ c ∈ s1.columns, c ∉ s2.columns)
    · exact hcov
  · intro r hr
    obtain ⟨sec, hsecmem, hval⟩ := List.mem_filterMap.mp hr
    by_cases hemp : accordion_all (transactions_by_col
        (fun k => teamBucket abbr grid k) sec.columns) = []
    · rw [if_pos hemp] at hval
      exact absurd hval (by simp)
    · rw [if_neg hemp] at hval
      injection hval with hval
      subst hval
      show accordion_count _ = _
      unfold accordion_count
      rw [accordion_all_flatMap]
      have hb : sec.columns.flatMap (fun c => teamBucket abbr grid c) =
          sec.columns.flatMap
            (fun c => (sheetTxns abbr grid).filter fun t2 => decide (t2.category = c)) :=
        List.flatMap_congr fun c _ => teamBucket_eq_filter abbr grid c
      rw [hb, length_flatMap_filter]
      have hall : ∀ s2 ∈ ACCORDION_SECTIONS, s2.columns.Nodup := by decide
      exact hall sec hsecmem

/-- C2 (witness): the c2grid transaction is rendered in exactly one section. -/
theorem c2_witness :
    (team_page_sections (processSheet (str "ARI") c2grid).2).countP
      (fun r => decide (c2txn ∈ r.items)) = 1 :=
  (c2_amended (str "ARI") c2grid).1 c2txn (by decide) (by decide)

/-- C3 (confirmed): for every input whose marker-stripped working string is
head, delimiter, tail — with the head free of the delimiter, containing a
slash, at most 5 characters, and month/day in range — parse_date returns
the head as the date and the tail as the text (splitting only at the first
delimiter; later ones stay in the tail), with stripped markers re-applied
around the tail, italic inside and strikethrough outside. -/
theorem c3_parse_valid_date (s : Str) (st it : Bool) (head tail : Str) (m dd : Int)
    (hsm : stripMarkers s = (st, it, head ++ ':' :: ' ' :: tail))
    (hh : hasCS head = false)
    (hslash : '/' ∈ head) (hlen : head.length ≤ 5)
    (hm : ((splitSlash head).get? 0).bind pyInt = some m)
    (hd : ((splitSlash head).get? 1).bind pyInt = some dd)
    (hm1 : 1 ≤ m) (hm2 : m ≤ 12) (hd1 : 1 ≤ dd) (hd2 : dd ≤ 31) :
    parse_date s = (some head,
      if st then '~' :: '~' :: (if it then '_' :: tail ++ ['_'] else tail) ++ ['~', '~']
      else (if it then '_' :: tail ++ ['_'] else tail)) := by
  simp only [parse_date, hsm]
  rw [if_pos (hasCS_append_cs head tail)]
  rw [splitCS_append head tail hh]
  simp only [List.headD_cons]
  rw [if_pos (by simp [hslash, hlen])]
  simp only [hm, hd]
  rw [if_pos (by simp [hm1, hm2, hd1, hd2])]
  have hdrop : List.drop 1 (head :: splitCS tail) = splitCS tail := rfl
  rw [hdrop, interCS_splitCS tail.length tail le_rfl]

/-- C3 (witness): the strikethrough round-trip example. -/
theorem c3_witness :
    parse_date (str "~~9/1: Cut~~") = (some (str "9/1"), str "~~Cut~~") := by
  have h := c3_parse_valid_date (str "~~9/1: Cut~~") true false (str "9/1") (str "Cut")
    9 1 (by decide) (by decide) (by decide) (by decide) (by decide) (by decide)
    (by decide) (by decide) (by decide) (by decide)
  exact h

/-- C5 (confirmed): date_sort_key equals the reference definition written
from the claim: undated entries with an asterisk in raw or text get
(1900,1,1) and others (2099,12,31); a dated entry whose month and day parse
gets ((2025 if month ≥ 9 else 2026), month, day), which lies strictly
between the two sentinels; a dated entry whose date fails to parse falls
back to (2099,12,31) instead of raising; and every dated transaction the
mapper produces parses, so its key is strictly between the sentinels. -/
theorem c5_sort_key (t : Txn) :
    date_sort_key t = sortKeySpec t ∧
    (t.date = none →
      date_sort_key t =
        if ('*' ∈ t.entry) ∨ ('*' ∈ t.raw) then ((1900 : Int), 1, 1)
        else (2099, 12, 31)) ∧
    (∀ d, t.date = some d →
      (∀ m dd : Int, ((splitSlash d).get? 0).bind pyInt = some m →
        ((splitSlash d).get? 1).bind pyInt = some dd →
        date_sort_key t = ((if m ≥ 9 then 2025 else 2026 : Int), m, dd) ∧
        tupLt (1900, 1, 1) (date_sort_key t) ∧
        tupLt (date_sort_key t) (2099, 12, 31)) ∧
      ((((splitSlash d).get? 0).bind pyInt = none ∨
        ((splitSlash d).get? 1).bind pyInt = none) →
        date_sort_key t = (2099, 12, 31))) ∧
    (∀ abbr grid, t ∈ (processSheet abbr grid).1 → ∀ d, t.date = some d →
      tupLt (1900, 1, 1) (date_sort_key t) ∧
      tupLt (date_sort_key t) (2099, 12, 31)) := by
  have hkey : ∀ d, t.date = some d → ∀ m dd : Int,
      ((splitSlash d).get? 0).bind pyInt = some m →
      ((splitSlash d).get? 1).bind pyInt = some dd →
      date_sort_key t = ((if m ≥ 9 then 2025 else 2026 : Int), m, dd) ∧
      tupLt (1900, 1, 1) (date_sort_key t) ∧
      tupLt (date_sort_key t) (2099, 12, 31) := by
    intro d hdd2 m dd hm hdm
    have hk : date_sort_key t = ((if m ≥ 9 then 2025 else 2026 : Int), m, dd) := by
      unfold date_sort_key
      rw [hdd2]
      simp only [hm, hdm]
    refine ⟨hk, ?_, ?_⟩
    · rw [hk]
      exact Or.inl (by split <;> omega)
    · rw [hk]
      exact Or.inl (by split <;> omega)
  refine ⟨?_, ?_, ?_, ?_⟩
  · cases ht : t.date with
    | none =>
      unfold date_sort_key sortKeySpec
      rw [ht]
      by_cases h1 : '*' ∈ t.entry <;> by_cases h2 : '*' ∈ t.raw <;> simp [h1, h2]
    | some d =>
      unfold date_sort_key sortKeySpec
      rw [ht]
  · intro ht
    unfold date_sort_key
    rw [ht]
  · intro d ht
    refine ⟨hkey d ht, ?_⟩
    intro hnone
    cases h1 : ((splitSlash d).get? 0).bind pyInt with
    | none =>
      cases h2 : ((splitSlash d).get? 1).bind pyInt with
      | none =>
        unfold date_sort_key
        rw [ht]
        simp only [List.get?_eq_getElem?] at h1 h2
        simp [h1, h2]
      | some y =>
        unfold date_sort_key
        rw [ht]
        simp only [List.get?_eq_getElem?] at h1 h2
        simp [h1, h2]
    | some x =>
      cases h2 : ((splitSlash d).get? 1).bind pyInt with
      | none =>
        unfold date_sort_key
        rw [ht]
        simp only [List.get?_eq_getElem?] at h1 h2
        simp [h1, h2]
      | some y =>
        rcases hnone with hn | hn
        · rw [h1] at hn
          exact absurd hn (by simp)
        · rw [h2] at hn
          exact absurd hn (by simp)
  · intro abbr grid hmem d ht
    rw [processSheet_eq] at hmem
    have hm2 : t ∈ sheetTxns abbr grid := hmem
    simp only [sheetTxns] at hm2
    obtain ⟨p, hp, htp⟩ := List.mem_flatMap.mp hm2
    have hmc := mem_colTxns htp
    rcases hpe : parse_date t.raw with ⟨o, txt⟩
    have ho : o = some d := by
      have h1 := hmc.2.2.1
      rw [hpe] at h1
      rw [ht] at h1
      exact h1.symm
    rw [ho] at hpe
    obtain ⟨_, _, m, dd, hm, hdm, _⟩ := parse_date_some_shape t.raw d txt hpe
    exact (hkey d ht m dd hm hdm).2

/-- C5 (witness): the key of a dated 9/1 transaction, strictly between the
sentinels and equal to the reference definition. -/
theorem c5_witness :
    date_sort_key c5txn = sortKeySpec c5txn ∧
    tupLt (1900, 1, 1) (date_sort_key c5txn) ∧
    tupLt (date_sort_key c5txn) (2099, 12, 31) :=
  ⟨(c5_sort_key c5txn).1,
   ((c5_sort_key c5txn).2.2.1 (str "9/1") rfl).1 9 1 (by decide) (by decide) |>.2⟩

/-- C6 (counterexample): the strikethrough pair is stripped from the
length-2 input of two tildes (the prefix and suffix tests overlap), despite
the claim's minimum length of 4; the italic pair fires on the single
underscore (empty content), despite the claim's non-empty-content
requirement. -/
theorem c6_counterexample :
    ((stripMarkers (str "~~")).1 = true ∧ ¬ 4 ≤ (str "~~").length) ∧
    ((stripMarkers (str "_")).2.1 = true ∧ (stripMarkers (str "_")).2.2 = []) := by
  decide

/-- C6 (amended): the parser strips a strikethrough pair exactly when the
input starts and ends with two tildes — with no minimum length, so the
length-2 and length-3 inputs also strip, to empty content — and strips an
italic pair exactly when the possibly-stripped string starts and ends with
an underscore and does not start with two underscores — with no non-empty
content requirement, so the single underscore also strips; otherwise the
string passes through unchanged. -/
theorem c6_amended (e : Str) :
    ((stripMarkers e).1 = true ↔
      ((str "~~").isPrefixOf e ∧ (str "~~").isSuffixOf e)) ∧
    ((stripMarkers e).2.1 = true ↔
      (['_'].isPrefixOf (strikeStripped e) ∧ ['_'].isSuffixOf (strikeStripped e) ∧
        ¬ (str "__").isPrefixOf (strikeStripped e))) ∧
    (stripMarkers e).2.2 =
      (if ['_'].isPrefixOf (strikeStripped e) && ['_'].isSuffixOf (strikeStripped e) &&
          !((str "__").isPrefixOf (strikeStripped e))
        then slice1m1 (strikeStripped e) else strikeStripped e) := by
  have hchar : stripMarkers e =
      ((str "~~").isPrefixOf e && (str "~~").isSuffixOf e,
       ['_'].isPrefixOf (strikeStripped e) && ['_'].isSuffixOf (strikeStripped e) &&
         !((str "__").isPrefixOf (strikeStripped e)),
       if ['_'].isPrefixOf (strikeStripped e) && ['_'].isSuffixOf (strikeStripped e) &&
           !((str "__").isPrefixOf (strikeStripped e))
         then slice1m1 (strikeStripped e) else strikeStripped e) := by
    unfold stripMarkers strikeStripped
    by_cases h1 : ((str "~~").isPrefixOf e && (str "~~").isSuffixOf e) = true
    · by_cases h2 : (['_'].isPrefixOf (slice2m2 e) && ['_'].isSuffixOf (slice2m2 e) &&
          !((str "__").isPrefixOf (slice2m2 e))) = true
      · simp [h1, h2]
      · simp [h1, h2]
    · by_cases h2 : (['_'].isPrefixOf e && ['_'].isSuffixOf e &&
          !((str "__").isPrefixOf e)) = true
      · simp [h1, h2]
      · simp [h1, h2]
  rw [hchar]
  refine ⟨?_, ?_, rfl⟩
  · simp [Bool.and_eq_true]
  · simp only [Bool.and_eq_true, Bool.not_eq_true', and_assoc, Bool.eq_false_iff,
      ne_eq, List.isPrefixOf_iff_prefix, List.isSuffixOf_iff_suffix]

/-- C9 (confirmed): when two different columns share the same (eligible)
trimmed header name, both are iterated: the single bucket keyed by that
name is the concatenation of every same-named column's transactions, so
each column's transactions all land in the shared bucket, and the flat list
is the concatenation over all eligible columns, each produced transaction
contributing exactly one element. -/
theorem c9_duplicate_headers (abbr : Str) (grid : Grid) (i j : Nat) (h : Str)
    (hi : (i, h) ∈ eligibleHeaders grid) (hj : (j, h) ∈ eligibleHeaders grid)
    (hij : i ≠ j) :
    ((processSheet abbr grid).2 h =
      ((eligibleHeaders grid).filter fun p => decide (p.2 = h)).flatMap
        (fun p => colTxns abbr (((teamLookup abbr).map (·.2.1)).getD []) grid p.1 p.2
          (pairedIdxFor (buildHeaders grid) p.1 p.2))) ∧
    (∀ t ∈ colTxns abbr (((teamLookup abbr).map (·.2.1)).getD []) grid i h
        (pairedIdxFor (buildHeaders grid) i h),
      t ∈ (processSheet abbr grid).2 h) ∧
    (∀ t ∈ colTxns abbr (((teamLookup abbr).map (·.2.1)).getD []) grid j h
        (pairedIdxFor (buildHeaders grid) j h),
      t ∈ (processSheet abbr grid).2 h) ∧
    (processSheet abbr grid).1 =
      (eligibleHeaders grid).flatMap
        (fun p => colTxns abbr (((teamLookup abbr).map (·.2.1)).getD []) grid p.1 p.2
          (pairedIdxFor (buildHeaders grid) p.1 p.2)) := by
  rw [processSheet_eq]
  have hbucket : teamBucket abbr grid h =
      ((eligibleHeaders grid).filter fun p => decide (p.2 = h)).flatMap
        (fun p => colTxns abbr (((teamLookup abbr).map (·.2.1)).getD []) grid p.1 p.2
          (pairedIdxFor (buildHeaders grid) p.1 p.2)) := rfl
  refine ⟨hbucket, ?_, ?_, rfl⟩
  · intro t htmem
    show t ∈ teamBucket abbr grid h
    rw [hbucket]
    exact List.mem_flatMap.mpr ⟨(i, h), List.mem_filter.mpr ⟨hi, by simp⟩, htmem⟩
  · intro t htmem
    show t ∈ teamBucket abbr grid h
    rw [hbucket]
    exact List.mem_flatMap.mpr ⟨(j, h), List.mem_filter.mpr ⟨hj, by simp⟩, htmem⟩

/-- C9 (witness): at c9grid, both same-named Released columns feed the one
shared bucket. -/
theorem c9_witness :
    c9txnA ∈ (processSheet (str "ARI") c9grid).2 (str "Released") ∧
    c9txnB ∈ (processSheet (str "ARI") c9grid).2 (str "Released") := by
  have h9 := c9_duplicate_headers (str "ARI") c9grid 0 1 (str "Released")
    (by decide) (by decide) (by decide)
  exact ⟨h9.2.1 c9txnA (by decide), h9.2.2.1 c9txnB (by decide)⟩
